import Mathlib

/-!
Verification of the git-stack graph subsystem.

This file gives a shallow embedding of the three source files of the
repository (`src/graph/ops.rs`, `src/config.rs`, `src/bin/git-stack/amend.rs`)
and proves properties of the embedded operations.

Modelling conventions:
* `git2::Oid` is modelled as `Nat` (commit ids and tree ids).
* `Node.stacks : Vec<Vec<Node>>` becomes `substacks : List (List Node)`
  (the identifier `stacks` is unavailable in this Lean environment).
* `commit.wip_summary().is_some()` is modelled as the boolean field
  `Commit.wip`; the graph passes only consume this boolean.
* In-place mutation (`&mut Node`) becomes a function returning the new value;
  functions that also return a flag return a pair.
* `crate::git::Branches` is modelled by the list of its protected tip oids
  (`oids()` is the list, `contains_oid` is membership), and
  `repo.merge_base` is a function parameter `Nat → Nat → Option Nat`.
* Runtime `assert!` calls do not change the computed value and are modelled
  as no-ops; where a claim depends on the asserted invariant it appears as an
  explicit hypothesis.
-/

namespace GitStack

/-- Per-node action verb, from `crate::graph::Action` as used in
`src/graph/ops.rs`. -/
inductive Action where
  | Pick
  | Protected
  | Rebase (new_base : Nat)
  | Delete
deriving DecidableEq, Repr

/-- Rust `action.is_protected()`. -/
def Action.is_protected : Action → Bool
  | .Protected => true
  | _ => false

/-- Rust `action.is_rebase()`. -/
def Action.is_rebase : Action → Bool
  | .Rebase _ => true
  | _ => false

/-- The commit data consumed by the graph passes: its oid, its tree oid and
whether its summary is a WIP marker (`wip_summary().is_some()`). -/
structure Commit where
  id : Nat
  tree_id : Nat
  wip : Bool
deriving DecidableEq, Repr

/-- The branch data consumed by the graph passes: name, current oid and
optional push-target oid. -/
structure Branch where
  name : String
  id : Nat
  push_id : Option Nat
deriving DecidableEq, Repr

/-- `crate::graph::Node`: a commit, the branches whose tip it is, an action,
the pushable flag, and the child stacks (each a straight run of nodes). -/
inductive Node where
  | mk (local_commit : Commit) (branches : List Branch) (action : Action)
       (pushable : Bool) (substacks : List (List Node))

def Node.local_commit : Node → Commit
  | .mk c _ _ _ _ => c

def Node.branches : Node → List Branch
  | .mk _ b _ _ _ => b

def Node.action : Node → Action
  | .mk _ _ a _ _ => a

def Node.pushable : Node → Bool
  | .mk _ _ _ p _ => p

def Node.substacks : Node → List (List Node)
  | .mk _ _ _ _ ss => ss

instance : Inhabited Node := ⟨.mk ⟨0, 0, false⟩ [] .Pick false []⟩

/-! ### Generic tree folds (used to state hypotheses and conclusions) -/

mutual
/-- Sum of `f` over every node of the subtree rooted at a node
(the node itself included). -/
def sum_nodes (f : Node → Nat) : Node → Nat
  | .mk c b a p ss => f (.mk c b a p ss) + sum_nodes_stacks f ss

def sum_nodes_run (f : Node → Nat) : List Node → Nat
  | [] => 0
  | n :: rest => sum_nodes f n + sum_nodes_run f rest

def sum_nodes_stacks (f : Node → Nat) : List (List Node) → Nat
  | [] => 0
  | s :: rest => sum_nodes_run f s + sum_nodes_stacks f rest
end

mutual
/-- Whether `q` holds of every node of the subtree (the node included). -/
def all_nodes (q : Node → Bool) : Node → Bool
  | .mk c b a p ss => q (.mk c b a p ss) && all_nodes_stacks q ss

def all_nodes_run (q : Node → Bool) : List Node → Bool
  | [] => true
  | n :: rest => all_nodes q n && all_nodes_run q rest

def all_nodes_stacks (q : Node → Bool) : List (List Node) → Bool
  | [] => true
  | s :: rest => all_nodes_run q s && all_nodes_stacks q rest
end

mutual
/-- Whether `q` holds of some node of the subtree (the node included). -/
def any_node (q : Node → Bool) : Node → Bool
  | .mk c b a p ss => q (.mk c b a p ss) || any_node_stacks q ss

def any_node_run (q : Node → Bool) : List Node → Bool
  | [] => false
  | n :: rest => any_node q n || any_node_run q rest

def any_node_stacks (q : Node → Bool) : List (List Node) → Bool
  | [] => false
  | s :: rest => any_node_run q s || any_node_stacks q rest
end

/-! ### protect_branches (`src/graph/ops.rs` lines 3-46) -/

mutual
/-- Loop body of `protect_branches_internal`: recurse into the node's stacks,
then mark the node `Protected` when a later node of the run was protected
(`descendant_protected`), one of its stacks contains a protected node, or its
own commit is a protected branch tip.  Returns the updated node and the
updated `descendant_protected` flag. -/
def protect_node (prot : List Nat) (descendant_protected : Bool) :
    Node → Node × Bool
  | .mk c b a p ss =>
    let r := protect_stacks prot ss
    let self_protected := prot.contains c.id
    if descendant_protected || r.2 || self_protected then
      (.mk c b .Protected p r.1, true)
    else
      (.mk c b a p r.1, false)

/-- `protect_branches_internal`: walk a run from its tip end backwards,
threading `descendant_protected`; returns the processed run and whether any
node of it (or of a subtree hanging off it) is protected. -/
def protect_branches_internal (prot : List Nat) :
    List Node → List Node × Bool
  | [] => ([], false)
  | n :: rest =>
    let r := protect_branches_internal prot rest
    let rn := protect_node prot r.2 n
    (rn.1 :: r.1, rn.2)

/-- The `for stack in node.stacks` loop of `protect_branches_internal`,
OR-ing the per-stack results. -/
def protect_stacks (prot : List Nat) :
    List (List Node) → List (List Node) × Bool
  | [] => ([], false)
  | s :: rest =>
    let r1 := protect_branches_internal prot s
    let r2 := protect_stacks prot rest
    (r1.1 :: r2.1, r1.2 || r2.2)
end

/-- `protect_branches`: the root is marked `Protected` when the merge base of
its commit and some protected tip is the root's commit; then every root stack
is processed by `protect_branches_internal`.  `mb` is `repo.merge_base`. -/
def protect_branches (mb : Nat → Nat → Option Nat) (prot : List Nat) :
    Node → Node
  | .mk c b a p ss =>
    let a' := if prot.any (fun oid => mb c.id oid == some c.id) then
        Action.Protected
      else a
    .mk c b a' p (protect_stacks prot ss).1

/-! ### rebase_branches (`src/graph/ops.rs` lines 48-85) -/

/-- The fall-through tail of `rebase_branches_internal` (after the stacks
loop): a node whose commit already is `new_base` reports success unchanged; a
`Protected` node becomes `Rebase(new_base)`; anything else reports failure. -/
def rebase_fallthrough (nb : Nat) (c : Commit) (b : List Branch) (a : Action)
    (p : Bool) (ss : List (List Node)) : Node × Bool :=
  if c.id = nb then (.mk c b a p ss, true)
  else if a = .Protected then (.mk c b (.Rebase nb) p ss, true)
  else (.mk c b a p ss, false)

mutual
/-- `rebase_branches_internal` on one node: if the node has stacks and every
stack rebased, short-circuit with success; otherwise fall through to the
node's own commit/action checks. -/
def rebase_branches_internal (nb : Nat) : Node → Node × Bool
  | .mk c b a p ss =>
    match ss with
    | [] => rebase_fallthrough nb c b a p []
    | s0 :: srest =>
      let r := rebase_stacks nb (s0 :: srest)
      if r.2 then (.mk c b a p r.1, true)
      else rebase_fallthrough nb c b a p r.1

/-- The per-stack loop: walk the run from its tip end and stop at the first
node that rebases; earlier nodes are left untouched. -/
def rebase_stack (nb : Nat) : List Node → List Node × Bool
  | [] => ([], false)
  | n :: rest =>
    let r := rebase_stack nb rest
    if r.2 then (n :: r.1, true)
    else
      let rn := rebase_branches_internal nb n
      (rn.1 :: r.1, rn.2)

/-- The `for stack in node.stacks` loop, AND-ing `all_stacks_rebased`. -/
def rebase_stacks (nb : Nat) : List (List Node) → List (List Node) × Bool
  | [] => ([], true)
  | s :: rest =>
    let r1 := rebase_stack nb s
    let r2 := rebase_stacks nb rest
    (r1.1 :: r2.1, r1.2 && r2.2)
end

/-- `rebase_branches`. -/
def rebase_branches (nb : Nat) (n : Node) : Node :=
  (rebase_branches_internal nb n).1

/-! ### pushable (`src/graph/ops.rs` lines 87-128) -/

/-- Whether every branch of the node already matches its push target
(`branches.iter().all(|b| Some(b.id) == b.push_id)`). -/
def all_branches_pushed (b : List Branch) : Bool :=
  b.all (fun br => some br.id == br.push_id)

mutual
/-- `pushable_stack` with the accumulated `cause` made explicit (`cause =
true` when an earlier node of the run was WIP or was a branchless divergence).
Protected/rebase nodes recurse into their stacks and are skipped; the first
non-protected branch-carrying node ends the scan, becoming pushable exactly
when no cause accumulated and not all its branches are already pushed. -/
def pushable_stack (cause : Bool) : List Node → List Node
  | [] => []
  | .mk c b a p ss :: rest =>
    if a.is_protected || a.is_rebase then
      .mk c b a p (pushable_stacks ss) :: pushable_stack cause rest
    else
      let cause1 := cause || c.wip
      if b.isEmpty then
        let cause2 := cause1 || !ss.isEmpty
        .mk c b a p ss :: pushable_stack cause2 rest
      else
        (if cause1 then .mk c b a p ss
         else if all_branches_pushed b then .mk c b a p ss
         else .mk c b a true ss) :: rest

/-- The `for stack in node.stacks` loop of `pushable_stack`; each stack is
scanned with a fresh cause. -/
def pushable_stacks : List (List Node) → List (List Node)
  | [] => []
  | s :: rest => pushable_stack false s :: pushable_stacks rest
end

/-- `pushable`: the root's stacks are scanned only when the root is
protected, a rebase node, or carries no branch. -/
def pushable : Node → Node
  | .mk c b a p ss =>
    if a.is_protected || a.is_rebase || b.isEmpty then
      .mk c b a p (pushable_stacks ss)
    else
      .mk c b a p ss

/-! ### drop_by_tree_id (`src/graph/ops.rs` lines 130-182) -/

/-- Append `moved` to the stacks of the `i`-th node of a run
(`nodes[last_protected].stacks.extend(moved_stacks)`). -/
def attach_at : List Node → Nat → List (List Node) → List Node
  | [], _, _ => []
  | .mk c b a p ss :: rest, 0, moved => .mk c b a p (ss ++ moved) :: rest
  | n :: rest, i + 1, moved => n :: attach_at rest i moved

mutual
/-- The stacks recursion performed at a protected/rebase node during the
scan (`for stack in node.stacks { moved_stacks.extend(stack_drop_by_tree_id(..)) }`):
returns the node with its stacks processed, plus the stacks that bubbled up.
-/
def drop_node (tids : List Nat) : Node → Node × List (List Node)
  | .mk c b a p ss =>
    let r := drop_stacks tids ss
    (.mk c b a p r.1, r.2)

/-- The scan loop of `stack_drop_by_tree_id`: returns the processed run, the
collected moved stacks, and the index of the last protected/rebase node
scanned.  Protected/rebase nodes recurse; a `Pick` whose tree id is in `onto`
becomes `Delete` and surrenders its stacks; any other `Pick`, or a `Delete`,
stops the scan. -/
def drop_scan (tids : List Nat) :
    List Node → List Node × List (List Node) × Option Nat
  | [] => ([], [], none)
  | n :: rest =>
    if n.action.is_protected || n.action.is_rebase then
      let r1 := drop_node tids n
      let r2 := drop_scan tids rest
      (r1.1 :: r2.1, r1.2 ++ r2.2.1,
       some (match r2.2.2 with | some j => j + 1 | none => 0))
    else if n.action == Action.Pick then
      if tids.contains n.local_commit.tree_id then
        let r2 := drop_scan tids rest
        (.mk n.local_commit n.branches .Delete n.pushable [] :: r2.1,
         n.substacks ++ r2.2.1, r2.2.2.map (· + 1))
      else (n :: rest, [], none)
    else
      (n :: rest, [], none)

/-- The `for stack in node.stacks` loop of `drop_by_tree_id` and of the
protected arm of the scan, concatenating the moved stacks.  Each stack is
processed by the body of `stack_drop_by_tree_id` (inlined here: scan, then
hang every moved stack off the last protected/rebase node when one exists;
otherwise hand the moved stacks to the caller). -/
def drop_stacks (tids : List Nat) :
    List (List Node) → List (List Node) × List (List Node)
  | [] => ([], [])
  | s :: rest =>
    let r := drop_scan tids s
    let r1 : List Node × List (List Node) :=
      match r.2.2 with
      | some i => (attach_at r.1 i r.2.1, [])
      | none => (r.1, r.2.1)
    let r2 := drop_stacks tids rest
    (r1.1 :: r2.1, r1.2 ++ r2.2)
end

/-- `stack_drop_by_tree_id`: scan the run, then hang every moved stack off
the last protected/rebase node when one exists; otherwise hand the moved
stacks to the caller. -/
def stack_drop_by_tree_id (tids : List Nat) (s : List Node) :
    List Node × List (List Node) :=
  let r := drop_scan tids s
  match r.2.2 with
  | some i => (attach_at r.1 i r.2.1, [])
  | none => (r.1, r.2.1)

/-- `drop_by_tree_id`: a no-op unless the node is protected or a rebase node;
otherwise drop already-landed picks in each stack (comparing tree ids against
those of the `onto` commits) and adopt any moved stacks that bubbled up. -/
def drop_by_tree_id (onto : List Commit) : Node → Node
  | .mk c b a p ss =>
    if a.is_protected || a.is_rebase then
      let tids := onto.map Commit.tree_id
      let r := drop_stacks tids ss
      .mk c b a p (r.1 ++ r.2)
    else
      .mk c b a p ss

/-! ### Script generation (`src/graph/ops.rs` lines 214-343) -/

/-- `crate::git::Command`. -/
inductive Command where
  | SwitchCommit (oid : Nat)
  | SwitchMark (oid : Nat)
  | RegisterMark (oid : Nat)
  | CherryPick (oid : Nat)
  | CreateBranch (name : String)
  | DeleteBranch (name : String)
deriving DecidableEq, Repr

/-- `crate::git::Script`: a command list plus dependent child scripts. -/
inductive Script where
  | mk (commands : List Command) (dependents : List Script)

def Script.commands : Script → List Command
  | .mk cmds _ => cmds

def Script.dependents : Script → List Script
  | .mk _ deps => deps

/-- The tail of `to_script_internal`: prepend `SwitchMark base_mark` when the
command list is non-empty, and return `none` when there is nothing at all. -/
def mk_sub_script (base_mark : Nat) (cmds : List Command)
    (deps : List Script) : Option Script :=
  let cmds' := if cmds.isEmpty then cmds else Command.SwitchMark base_mark :: cmds
  if cmds'.isEmpty && deps.isEmpty then none else some (.mk cmds' deps)

mutual
/-- The per-node body of the `to_script_internal` loop: the commands and the
dependent scripts one node contributes. -/
def to_script_node : Node → List Command × List Script
  | .mk c b a _ ss =>
    match a with
    | .Pick =>
      let cmds := Command.CherryPick c.id ::
        b.map (fun br => Command.CreateBranch br.name)
      if ss.isEmpty then (cmds, [])
      else (cmds ++ [Command.RegisterMark c.id], to_script_deps c.id ss)
    | .Protected =>
      (ss.map (fun _ => Command.RegisterMark c.id), to_script_deps c.id ss)
    | .Rebase nb =>
      ([Command.SwitchCommit nb, Command.RegisterMark nb],
       to_script_deps nb ss)
    | .Delete => (b.map (fun br => Command.DeleteBranch br.name), [])

/-- The node loop of `to_script_internal`: accumulate the commands and the
dependent scripts contributed by each node of a straight run. -/
def to_script_run : List Node → List Command × List Script
  | [] => ([], [])
  | n :: rest =>
    let head := to_script_node n
    let tail := to_script_run rest
    (head.1 ++ tail.1, head.2 ++ tail.2)

/-- The `for stack in node.stacks` loops feeding `script.dependents`:
each stack yields at most one dependent script, built with `base_mark`. -/
def to_script_deps (base_mark : Nat) : List (List Node) → List Script
  | [] => []
  | s :: rest =>
    let r := to_script_run s
    (mk_sub_script base_mark r.1 r.2).toList ++ to_script_deps base_mark rest
end

/-- `to_script_internal`. -/
def to_script_internal (ns : List Node) (base_mark : Nat) : Option Script :=
  let r := to_script_run ns
  mk_sub_script base_mark r.1 r.2

/-- `to_script` over the graph root: a pick or protected root emits
`SwitchCommit`/`RegisterMark` for its own commit (the base is never
cherry-picked), a rebase root does so for the new base, and a delete root
emits only `DeleteBranch` commands. -/
def to_script : Node → Script
  | .mk c b a _ ss =>
    match a with
    | .Pick => .mk [.SwitchCommit c.id, .RegisterMark c.id] (to_script_deps c.id ss)
    | .Protected => .mk [.SwitchCommit c.id, .RegisterMark c.id] (to_script_deps c.id ss)
    | .Rebase nb => .mk [.SwitchCommit nb, .RegisterMark nb] (to_script_deps nb ss)
    | .Delete => .mk (b.map (fun br => .DeleteBranch br.name)) []

mutual
/-- Number of commands satisfying `p` in a script tree. -/
def script_count (p : Command → Bool) : Script → Nat
  | .mk cmds deps => cmds.countP p + scripts_count p deps

def scripts_count (p : Command → Bool) : List Script → Nat
  | [] => 0
  | s :: rest => script_count p s + scripts_count p rest
end

mutual
/-- Depth-first preorder flattening of a script tree: a script's own commands
before its dependents, dependents in stack order. -/
def script_flat : Script → List Command
  | .mk cmds deps => cmds ++ scripts_flat deps

def scripts_flat : List Script → List Command
  | [] => []
  | s :: rest => script_flat s ++ scripts_flat rest
end

/-- Scan a command sequence, accumulating registered marks, and check that
every `SwitchMark` refers to a previously registered mark. -/
def marks_ok (regs : List Nat) : List Command → Bool
  | [] => true
  | .RegisterMark m :: rest => marks_ok (m :: regs) rest
  | .SwitchMark m :: rest => decide (m ∈ regs) && marks_ok regs rest
  | _ :: rest => marks_ok regs rest

/-- The marks registered by a command sequence, newest first. -/
def regs_after (regs : List Nat) : List Command → List Nat
  | [] => regs
  | .RegisterMark m :: rest => regs_after (m :: regs) rest
  | _ :: rest => regs_after regs rest

/-- The non-bookkeeping commands a non-root node contributes to the script:
a pick cherry-picks its commit and creates its branches, a delete deletes its
branches, protected and rebase nodes contribute only marks and switches. -/
def emitted_cmds : Node → List Command
  | .mk c b a _ _ =>
    match a with
    | .Pick => Command.CherryPick c.id :: b.map (fun br => Command.CreateBranch br.name)
    | .Protected => []
    | .Rebase _ => []
    | .Delete => b.map (fun br => Command.DeleteBranch br.name)

/-- Number of emitted (non-bookkeeping) commands of a node satisfying `p`. -/
def emitted_weight (p : Command → Bool) (n : Node) : Nat :=
  (emitted_cmds n).countP p

/-- Weight of a node as a source of `CherryPick oid`: one exactly when the
node is a `Pick` of commit `oid`. -/
def cherry_weight (oid : Nat) (n : Node) : Nat :=
  if n.action == Action.Pick && n.local_commit.id == oid then 1 else 0

/-- Weight of a node as a source of `CreateBranch name`: the number of its
branches called `name` when the node is a `Pick`, zero otherwise. -/
def create_weight (name : String) (n : Node) : Nat :=
  if n.action == Action.Pick then
    n.branches.countP (fun br => br.name == name)
  else 0

/-- Weight of a node as a source of `DeleteBranch name`: the number of its
branches called `name` when the node is a `Delete`, zero otherwise. -/
def delete_weight (name : String) (n : Node) : Nat :=
  if n.action == Action.Delete then
    n.branches.countP (fun br => br.name == name)
  else 0

/-! ### Derived predicates used by the claims -/

/-- Every `Delete` node of the subtree has no stacks. -/
def delete_empty (n : Node) : Bool :=
  all_nodes (fun m => !(m.action == Action.Delete) || m.substacks.isEmpty) n

/-- Number of top-level nodes of a run whose action is `Rebase`. -/
def run_rebase_count : List Node → Nat
  | [] => 0
  | n :: rest => (if n.action.is_rebase then 1 else 0) + run_rebase_count rest

mutual
/-- Every straight run of the subtree contains at most one `Rebase` node. -/
def at_most_one_rebase : Node → Bool
  | .mk _ _ _ _ ss => at_most_one_rebase_stacks ss

def at_most_one_rebase_run : List Node → Bool
  | [] => true
  | n :: rest => at_most_one_rebase n && at_most_one_rebase_run rest

def at_most_one_rebase_stacks : List (List Node) → Bool
  | [] => true
  | s :: rest =>
    decide (run_rebase_count s ≤ 1) && at_most_one_rebase_run s &&
      at_most_one_rebase_stacks rest
end

/-- Number of top-level nodes of a run marked pushable. -/
def run_pushable_count : List Node → Nat
  | [] => 0
  | n :: rest => (if n.pushable then 1 else 0) + run_pushable_count rest

mutual
/-- Every straight run of the subtree has at most one pushable node. -/
def at_most_one_pushable : Node → Bool
  | .mk _ _ _ _ ss => at_most_one_pushable_stacks ss

def at_most_one_pushable_run : List Node → Bool
  | [] => true
  | n :: rest => at_most_one_pushable n && at_most_one_pushable_run rest

def at_most_one_pushable_stacks : List (List Node) → Bool
  | [] => true
  | s :: rest =>
    decide (run_pushable_count s ≤ 1) && at_most_one_pushable_run s &&
      at_most_one_pushable_stacks rest
end

/-- A node that keeps a `pushable_stack` scan clean: protected/rebase nodes
are skipped, and a non-WIP node with no branches and no stacks adds no cause.
-/
def scan_inert (n : Node) : Bool :=
  n.action.is_protected || n.action.is_rebase ||
    (!n.local_commit.wip && n.branches.isEmpty && n.substacks.isEmpty)

mutual
/-- Soundness of the pushable marking: every marked node is non-protected,
carries a branch, is itself not WIP, has some branch differing from its push
target, and sits in a clean scan context (every earlier node of its run is
protected/rebase or inert). -/
def pushable_sound : Node → Bool
  | .mk _ _ _ _ ss => pushable_sound_stacks ss

def pushable_sound_run (clean : Bool) : List Node → Bool
  | [] => true
  | n :: rest =>
    (!n.pushable ||
      (clean && !(n.action.is_protected || n.action.is_rebase) &&
        !n.branches.isEmpty && !all_branches_pushed n.branches &&
        !n.local_commit.wip)) &&
    pushable_sound n &&
    pushable_sound_run (clean && scan_inert n) rest

def pushable_sound_stacks : List (List Node) → Bool
  | [] => true
  | s :: rest => pushable_sound_run true s && pushable_sound_stacks rest
end

mutual
/-- Protection is upward closed: any node with a protected descendant is
itself protected, both across divergences and within a run (earlier nodes of
a run are the ancestors of later ones). -/
def protection_closed : Node → Bool
  | .mk _ _ a _ ss =>
    protection_closed_stacks ss &&
      (!(any_node_stacks (fun m => m.action.is_protected) ss) || a.is_protected)

def protection_closed_run : List Node → Bool
  | [] => true
  | n :: rest =>
    protection_closed n && protection_closed_run rest &&
      (!(any_node_run (fun m => m.action.is_protected) rest) ||
        n.action.is_protected)

def protection_closed_stacks : List (List Node) → Bool
  | [] => true
  | s :: rest => protection_closed_run s && protection_closed_stacks rest
end

/-- Whether the node's commit is a protected branch tip
(`protected_branches.contains_oid`). -/
def tip_protected (prot : List Nat) (m : Node) : Bool :=
  prot.contains m.local_commit.id

/-- A per-commit weight lifted to nodes; summing it over a graph ignores
everything but the commits, so its preservation says no commit is lost or
duplicated. -/
def commit_weight (fc : Commit → Nat) : Node → Nat
  | .mk c _ _ _ _ => fc c

/-! ### Configuration (`src/config.rs`) -/

/-- `RepoConfig`. -/
structure RepoConfig where
  protected_branches : Option (List String)
deriving DecidableEq, Repr

/-- `RepoConfig::merge`: lists concatenate with the earlier layer first; a
later layer fills in an unset earlier value; a later unset layer changes
nothing. -/
def RepoConfig.merge (self other : RepoConfig) : RepoConfig :=
  match self.protected_branches, other.protected_branches with
  | some lhs, some rhs => ⟨some (lhs ++ rhs)⟩
  | none, some rhs => ⟨some rhs⟩
  | _, _ => self

/-- `RepoConfig::from_all` layers defaults, then the workdir file, then the
repo-local config.  Reading the three layers is file/Git I/O; the loaded
layer values enter as parameters. -/
def RepoConfig.from_all (defaults workdir repo : RepoConfig) : RepoConfig :=
  (defaults.merge workdir).merge repo

/-! ### The amend command (`src/bin/git-stack/amend.rs`) -/

/-- `git_stack::graph::Action` as consumed by `AmendArgs::exec` (the variant
set of the amend flow's graph API). -/
inductive AmendAction where
  | Pick
  | Fixup
  | Protected
deriving DecidableEq, Repr

/-- The repository mutations the amend flow can perform after its action
check, in program order (default code path: no `--all`, no interactive). -/
inductive Mutation where
  | StashPush
  | SnapshotPush
  | FixupCommit
deriving DecidableEq, Repr

/-- `proc_exit::Code::FAILURE` exits with code 1. -/
def FAILURE : Nat := 1

/-- `proc_exit::sysexits::USAGE_ERR` exits with code 64. -/
def USAGE_ERR : Nat := 64

/-- The decision prefix of `AmendArgs::exec` from the graph action of the
HEAD commit onward: amending a `Fixup` or `Protected` commit returns
`proc_exit::Code::FAILURE` before any mutation; a `Pick` HEAD proceeds to
stash, snapshot and create the fixup commit (all skipped on `--dry-run`).
Everything before the check (repo discovery, config, graph building) only
reads. -/
def amend_exec (head_action : AmendAction) (dry_run : Bool) :
    List Mutation × Except Nat Unit :=
  match head_action with
  | .Fixup => ([], .error FAILURE)
  | .Protected => ([], .error FAILURE)
  | .Pick =>
    if dry_run then ([], .ok ())
    else ([.StashPush, .SnapshotPush, .FixupCommit], .ok ())

/-- A concrete decorated graph used as a test fixture: a protected root with
one stack holding a `Pick` (commit 1, branch `a`) that carries a nested
`Pick` (commit 2, branch `b`), followed by a stackless `Delete` (commit 3,
branch `c`). -/
def gW : Node :=
  Node.mk ⟨0, 0, false⟩ [] Action.Protected false
    [[Node.mk ⟨1, 1, false⟩ [⟨"a", 1, none⟩] Action.Pick false
        [[Node.mk ⟨2, 2, false⟩ [⟨"b", 2, none⟩] Action.Pick false []]],
      Node.mk ⟨3, 3, false⟩ [⟨"c", 3, none⟩] Action.Delete false []]]

/-! ## Theorems -/

/-! ### Claim C9: configuration layering -/

/-- C9: `RepoConfig::from_all` layers defaults, then the workdir file, then
the repo config; when all three define `protected-branches` the lists
concatenate with earlier layers first; merging with a layer whose value is
unset leaves the earlier value unchanged; a later layer appends and never
overwrites or removes earlier entries. -/
theorem repo_config_layering :
    (∀ d w r : RepoConfig, ∀ ld lw lr : List String,
      d.protected_branches = some ld → w.protected_branches = some lw →
      r.protected_branches = some lr →
      (RepoConfig.from_all d w r).protected_branches = some (ld ++ lw ++ lr)) ∧
    (∀ cfg : RepoConfig, cfg.merge ⟨none⟩ = cfg) ∧
    (∀ la lb : List String,
      (RepoConfig.mk (some la)).merge ⟨some lb⟩ = ⟨some (la ++ lb)⟩) := by
  refine ⟨?_, ?_, ?_⟩
  · intro d w r ld lw lr hd hw hr
    obtain ⟨dpb⟩ := d
    obtain ⟨wpb⟩ := w
    obtain ⟨rpb⟩ := r
    simp only at hd hw hr
    subst hd hw hr
    simp [RepoConfig.from_all, RepoConfig.merge]
  · intro cfg
    obtain ⟨pb⟩ := cfg
    cases pb <;> rfl
  · intro la lb
    rfl

/-- Witness for C9 at concrete configuration layers. -/
theorem repo_config_layering_witness :
    (RepoConfig.mk (some ["/main"])).protected_branches = some ["/main"] ∧
    (RepoConfig.from_all ⟨some ["/main"]⟩ ⟨some ["team/*"]⟩
        ⟨some ["release/*"]⟩).protected_branches
      = some (["/main"] ++ ["team/*"] ++ ["release/*"]) :=
  ⟨rfl, repo_config_layering.1 ⟨some ["/main"]⟩ ⟨some ["team/*"]⟩
    ⟨some ["release/*"]⟩ ["/main"] ["team/*"] ["release/*"] rfl rfl rfl⟩

/-! ### Claim C8: amend fails fast on Fixup/Protected HEAD -/

/-- C8 (amended): when the HEAD commit's graph annotation is `Fixup` or
`Protected`, the amend command fails before any mutation (no stash push, no
snapshot, no fixup commit), but the failure is the general failure exit
code 1 (`proc_exit::Code::FAILURE`), not the usage error code 64. -/
theorem amend_fail_fast (a : AmendAction) (dry_run : Bool)
    (h : a = AmendAction.Fixup ∨ a = AmendAction.Protected) :
    amend_exec a dry_run = ([], .error FAILURE) ∧ FAILURE ≠ USAGE_ERR := by
  rcases h with h | h <;> subst h <;> exact ⟨rfl, by decide⟩

/-- Witness for C8 at a concrete action. -/
theorem amend_fail_fast_witness :
    (AmendAction.Fixup = AmendAction.Fixup ∨
      AmendAction.Fixup = AmendAction.Protected) ∧
    (amend_exec AmendAction.Fixup false = ([], .error FAILURE) ∧
      FAILURE ≠ USAGE_ERR) :=
  ⟨Or.inl rfl, amend_fail_fast AmendAction.Fixup false (Or.inl rfl)⟩

/-- C8 counterexample to the claim as stated: the failure carries exit
code 1, and 1 is not the usage exit code 64. -/
theorem amend_exit_code_counterexample :
    amend_exec AmendAction.Fixup false = ([], .error 1) ∧
    amend_exec AmendAction.Protected true = ([], .error 1) ∧
    (1 : Nat) ≠ 64 :=
  ⟨rfl, rfl, by decide⟩

/-! ### Claim C2: at most one rebase -/

theorem all_nodes_here {q : Node → Bool} {n : Node}
    (h : all_nodes q n = true) : q n = true := by
  obtain ⟨c, b, a, p, ss⟩ := n
  rw [all_nodes] at h
  simp only [Bool.and_eq_true] at h
  exact h.1

theorem all_nodes_substacks {q : Node → Bool} {n : Node}
    (h : all_nodes q n = true) : all_nodes_stacks q n.substacks = true := by
  obtain ⟨c, b, a, p, ss⟩ := n
  rw [all_nodes] at h
  simp only [Bool.and_eq_true] at h
  exact h.2

theorem all_nodes_run_cons {q : Node → Bool} {n : Node} {rest : List Node}
    (h : all_nodes_run q (n :: rest) = true) :
    all_nodes q n = true ∧ all_nodes_run q rest = true := by
  rw [all_nodes_run] at h
  simp only [Bool.and_eq_true] at h
  exact h

theorem all_nodes_stacks_cons {q : Node → Bool} {s : List Node}
    {rest : List (List Node)}
    (h : all_nodes_stacks q (s :: rest) = true) :
    all_nodes_run q s = true ∧ all_nodes_stacks q rest = true := by
  rw [all_nodes_stacks] at h
  simp only [Bool.and_eq_true] at h
  exact h

/-- A run with no rebase node anywhere has top-level rebase count zero. -/
theorem run_rebase_count_zero {s : List Node}
    (h : all_nodes_run (fun m => !m.action.is_rebase) s = true) :
    run_rebase_count s = 0 := by
  induction s with
  | nil => rfl
  | cons n rest ih =>
    obtain ⟨hn, hrest⟩ := all_nodes_run_cons h
    have hq := all_nodes_here hn
    simp only [Bool.not_eq_true'] at hq
    simp [run_rebase_count, hq, ih hrest]

mutual
/-- A tree with no rebase node satisfies the per-run bound trivially. -/
theorem no_rebase_amor : ∀ n : Node,
    all_nodes (fun m => !m.action.is_rebase) n = true →
    at_most_one_rebase n = true
  | .mk c b a p ss, h => by
    rw [at_most_one_rebase]
    exact no_rebase_amor_stacks ss (all_nodes_substacks h)

theorem no_rebase_amor_run : ∀ s : List Node,
    all_nodes_run (fun m => !m.action.is_rebase) s = true →
    at_most_one_rebase_run s = true
  | [], _ => rfl
  | n :: rest, h => by
    obtain ⟨hn, hrest⟩ := all_nodes_run_cons h
    rw [at_most_one_rebase_run]
    simp [no_rebase_amor n hn, no_rebase_amor_run rest hrest]

theorem no_rebase_amor_stacks : ∀ ss : List (List Node),
    all_nodes_stacks (fun m => !m.action.is_rebase) ss = true →
    at_most_one_rebase_stacks ss = true
  | [], _ => rfl
  | s :: rest, h => by
    obtain ⟨hs, hrest⟩ := all_nodes_stacks_cons h
    rw [at_most_one_rebase_stacks]
    simp [run_rebase_count_zero hs, no_rebase_amor_run s hs,
      no_rebase_amor_stacks rest hrest]
end

/-- When `rebase_branches_internal` reports failure it left the node's
action unchanged. -/
theorem rebase_internal_false_action (nb : Nat) (n : Node)
    (h : (rebase_branches_internal nb n).2 = false) :
    (rebase_branches_internal nb n).1.action = n.action := by
  obtain ⟨c, b, a, p, ss⟩ := n
  cases ss with
  | nil =>
    rw [rebase_branches_internal] at h ⊢
    unfold rebase_fallthrough at h ⊢
    split at h
    · simp_all
    · split at h
      · simp_all
      · simp_all [Node.action]
  | cons s0 srest =>
    rw [rebase_branches_internal] at h ⊢
    split at h
    · simp_all
    · unfold rebase_fallthrough at h ⊢
      split at h
      · simp_all [Node.action]
      · split at h
        · simp_all
        · simp_all [Node.action]

/-- When the per-stack loop reports failure, every top-level action of the
run is unchanged, so its top-level rebase count is unchanged. -/
theorem rebase_stack_false_count (nb : Nat) (s : List Node)
    (h : (rebase_stack nb s).2 = false) :
    run_rebase_count (rebase_stack nb s).1 = run_rebase_count s := by
  induction s with
  | nil => rfl
  | cons n rest ih =>
    by_cases hr : (rebase_stack nb rest).2 = true
    · rw [rebase_stack] at h
      simp [hr] at h
    · simp only [Bool.not_eq_true] at hr
      rw [rebase_stack] at h ⊢
      simp only [hr, Bool.false_eq_true, if_false] at h ⊢
      simp only [run_rebase_count]
      rw [rebase_internal_false_action nb n h, ih hr]

mutual
/-- After a rebase of a rebase-free tree, every run of the result contains
at most one rebase node. -/
theorem rebase_node_amor (nb : Nat) : ∀ n : Node,
    all_nodes (fun m => !m.action.is_rebase) n = true →
    at_most_one_rebase (rebase_branches_internal nb n).1 = true
  | .mk c b a p ss, h => by
    have hss := all_nodes_substacks h
    cases ss with
    | nil =>
      rw [rebase_branches_internal]
      unfold rebase_fallthrough
      split
      · rfl
      · split
        · rfl
        · rfl
    | cons s0 srest =>
      have hstep := rebase_stacks_amor nb (s0 :: srest) hss
      rw [rebase_branches_internal]
      split
      · rw [at_most_one_rebase]
        exact hstep
      · unfold rebase_fallthrough
        split
        · rw [at_most_one_rebase]
          exact hstep
        · split
          · rw [at_most_one_rebase]
            exact hstep
          · rw [at_most_one_rebase]
            exact hstep

theorem rebase_stack_amor (nb : Nat) : ∀ s : List Node,
    all_nodes_run (fun m => !m.action.is_rebase) s = true →
    run_rebase_count (rebase_stack nb s).1 ≤ 1 ∧
      at_most_one_rebase_run (rebase_stack nb s).1 = true
  | [], _ => ⟨by simp [rebase_stack, run_rebase_count], rfl⟩
  | n :: rest, h => by
    obtain ⟨hn, hrest⟩ := all_nodes_run_cons h
    obtain ⟨ihc, ihr⟩ := rebase_stack_amor nb rest hrest
    rw [rebase_stack]
    simp only
    split
    · constructor
      · have hq := all_nodes_here hn
        simp only [Bool.not_eq_true'] at hq
        simpa [run_rebase_count, hq] using ihc
      · rw [at_most_one_rebase_run]
        simp [no_rebase_amor n hn, ihr]
    · rename_i hr
      simp only [Bool.not_eq_true] at hr
      constructor
      · have hcount := rebase_stack_false_count nb rest hr
        have hzero := run_rebase_count_zero hrest
        simp only [run_rebase_count, hcount, hzero]
        split <;> simp
      · rw [at_most_one_rebase_run]
        simp [rebase_node_amor nb n hn, ihr]

theorem rebase_stacks_amor (nb : Nat) : ∀ ss : List (List Node),
    all_nodes_stacks (fun m => !m.action.is_rebase) ss = true →
    at_most_one_rebase_stacks (rebase_stacks nb ss).1 = true
  | [], _ => rfl
  | s :: rest, h => by
    obtain ⟨hs, hrest⟩ := all_nodes_stacks_cons h
    obtain ⟨hc, hr⟩ := rebase_stack_amor nb s hs
    rw [rebase_stacks]
    simp only
    rw [at_most_one_rebase_stacks]
    simp [hc, hr, rebase_stacks_amor nb rest hrest]
end

/-- C2 (amended): starting from a graph with no rebase node (as produced by
`protect_branches`, whose output actions are only `Pick` and `Protected`),
`rebase_branches` leaves at most one `Rebase` node in every straight run.
Along a full root-to-tip path, however, several runs can each contribute a
rebase when a divergent protected node has some stack without a protected
frontier — see the counterexample. -/
theorem rebase_at_most_one_rebase_per_run (nb : Nat) (g : Node)
    (h : all_nodes (fun m => !m.action.is_rebase) g = true) :
    at_most_one_rebase (rebase_branches nb g) = true :=
  rebase_node_amor nb g h

/-- Witness for C2 on a concrete protected graph. -/
theorem rebase_at_most_one_rebase_per_run_witness :
    all_nodes (fun m => !m.action.is_rebase)
      (.mk ⟨10, 0, false⟩ [] .Protected false
        [[.mk ⟨11, 0, false⟩ [] .Protected false []],
         [.mk ⟨12, 0, false⟩ [] .Pick false []]]) = true ∧
    at_most_one_rebase (rebase_branches 99
      (.mk ⟨10, 0, false⟩ [] .Protected false
        [[.mk ⟨11, 0, false⟩ [] .Protected false []],
         [.mk ⟨12, 0, false⟩ [] .Pick false []]])) = true :=
  ⟨rfl, rebase_at_most_one_rebase_per_run 99
    (.mk ⟨10, 0, false⟩ [] .Protected false
      [[.mk ⟨11, 0, false⟩ [] .Protected false []],
       [.mk ⟨12, 0, false⟩ [] .Pick false []]]) rfl⟩

/-- C2 counterexample to the claim as stated: run `protect_branches` (the
repository has protected tip 11, a descendant of root 10), then
`rebase_branches` onto 99.  The root and the first node of its first stack
— two nodes on one root-to-tip path — both end up with action `Rebase 99`,
because the root's second stack has no protected frontier. -/
theorem rebase_two_rebase_on_path_counterexample :
    protect_branches (fun a b => if a = 10 && b = 11 then some 10 else none)
        [11]
        (.mk ⟨10, 0, false⟩ [] .Pick false
          [[.mk ⟨11, 0, false⟩ [] .Pick false []],
           [.mk ⟨12, 0, false⟩ [] .Pick false []]])
      = .mk ⟨10, 0, false⟩ [] .Protected false
          [[.mk ⟨11, 0, false⟩ [] .Protected false []],
           [.mk ⟨12, 0, false⟩ [] .Pick false []]] ∧
    rebase_branches 99
        (.mk ⟨10, 0, false⟩ [] .Protected false
          [[.mk ⟨11, 0, false⟩ [] .Protected false []],
           [.mk ⟨12, 0, false⟩ [] .Pick false []]])
      = .mk ⟨10, 0, false⟩ [] (.Rebase 99) false
          [[.mk ⟨11, 0, false⟩ [] (.Rebase 99) false []],
           [.mk ⟨12, 0, false⟩ [] .Pick false []]] :=
  ⟨rfl, rfl⟩

/-! ### Claims C3 and C10: the pushable pass -/

/-- A run with no pushable node anywhere has top-level pushable count zero. -/
theorem run_pushable_count_zero {s : List Node}
    (h : all_nodes_run (fun m => !m.pushable) s = true) :
    run_pushable_count s = 0 := by
  induction s with
  | nil => rfl
  | cons n rest ih =>
    obtain ⟨hn, hrest⟩ := all_nodes_run_cons h
    have hq := all_nodes_here hn
    simp only [Bool.not_eq_true'] at hq
    simp [run_pushable_count, hq, ih hrest]

mutual
/-- An entirely unpushable tree satisfies the soundness predicate trivially. -/
theorem unpush_sound : ∀ n : Node,
    all_nodes (fun m => !m.pushable) n = true → pushable_sound n = true
  | .mk c b a p ss, h => by
    rw [pushable_sound]
    exact unpush_sound_stacks ss (all_nodes_substacks h)

theorem unpush_sound_run : ∀ (s : List Node) (clean : Bool),
    all_nodes_run (fun m => !m.pushable) s = true →
    pushable_sound_run clean s = true
  | [], _, _ => by rw [pushable_sound_run]
  | n :: rest, clean, h => by
    obtain ⟨hn, hrest⟩ := all_nodes_run_cons h
    have hq := all_nodes_here hn
    simp only [Bool.not_eq_true'] at hq
    rw [pushable_sound_run]
    simp [hq, unpush_sound n hn, unpush_sound_run rest (clean && scan_inert n) hrest]

theorem unpush_sound_stacks : ∀ ss : List (List Node),
    all_nodes_stacks (fun m => !m.pushable) ss = true →
    pushable_sound_stacks ss = true
  | [], _ => by rw [pushable_sound_stacks]
  | s :: rest, h => by
    obtain ⟨hs, hrest⟩ := all_nodes_stacks_cons h
    rw [pushable_sound_stacks]
    simp [unpush_sound_run s true hs, unpush_sound_stacks rest hrest]
end

mutual
/-- An entirely unpushable tree satisfies the per-run bound trivially. -/
theorem unpush_amop : ∀ n : Node,
    all_nodes (fun m => !m.pushable) n = true →
    at_most_one_pushable n = true
  | .mk c b a p ss, h => by
    rw [at_most_one_pushable]
    exact unpush_amop_stacks ss (all_nodes_substacks h)

theorem unpush_amop_run : ∀ s : List Node,
    all_nodes_run (fun m => !m.pushable) s = true →
    at_most_one_pushable_run s = true
  | [], _ => rfl
  | n :: rest, h => by
    obtain ⟨hn, hrest⟩ := all_nodes_run_cons h
    rw [at_most_one_pushable_run]
    simp [unpush_amop n hn, unpush_amop_run rest hrest]

theorem unpush_amop_stacks : ∀ ss : List (List Node),
    all_nodes_stacks (fun m => !m.pushable) ss = true →
    at_most_one_pushable_stacks ss = true
  | [], _ => rfl
  | s :: rest, h => by
    obtain ⟨hs, hrest⟩ := all_nodes_stacks_cons h
    rw [at_most_one_pushable_stacks]
    simp [run_pushable_count_zero hs, unpush_amop_run s hs,
      unpush_amop_stacks rest hrest]
end

mutual
/-- Soundness of `pushable_stack` on an unpushable input run: every node it
marks satisfies the conditions recorded by `pushable_sound_run`. -/
theorem pushable_stack_sound : ∀ (s : List Node) (cause : Bool),
    all_nodes_run (fun m => !m.pushable) s = true →
    pushable_sound_run (!cause) (pushable_stack cause s) = true
  | [], _, _ => by rw [pushable_stack, pushable_sound_run]
  | .mk c b a p ss :: rest, cause, h => by
    obtain ⟨hn, hrest⟩ := all_nodes_run_cons h
    have hp := all_nodes_here hn
    simp only [Node.pushable, Bool.not_eq_true'] at hp
    subst hp
    have hss := all_nodes_substacks hn
    rw [pushable_stack]
    by_cases hprot : (a.is_protected || a.is_rebase) = true
    · rw [if_pos hprot]
      rw [pushable_sound_run]
      have hhead : pushable_sound (.mk c b a false (pushable_stacks ss)) = true := by
        rw [pushable_sound]
        exact pushable_stacks_sound ss hss
      have htail := pushable_stack_sound rest cause hrest
      simp [Node.pushable, hhead, scan_inert, Node.action, hprot, htail]
    · rw [if_neg hprot]
      simp only [Bool.not_eq_true] at hprot
      by_cases hb : b.isEmpty = true
      · rw [if_pos hb]
        rw [pushable_sound_run]
        have htail := pushable_stack_sound rest
          (cause || c.wip || !ss.isEmpty) hrest
        have hclean : (!cause && scan_inert (.mk c b a false ss))
            = !(cause || c.wip || !ss.isEmpty) := by
          simp only [scan_inert, Node.action, Node.local_commit, Node.branches,
            Node.substacks, hprot, hb]
          cases cause <;> cases c.wip <;> cases ss.isEmpty <;> simp
        rw [← hclean] at htail
        simp [Node.pushable, unpush_sound _ hn, htail]
      · rw [if_neg hb]
        by_cases hc1 : (cause || c.wip) = true
        · rw [if_pos hc1]
          rw [pushable_sound_run]
          simp [Node.pushable, unpush_sound _ hn, unpush_sound_run rest _ hrest]
        · rw [if_neg hc1]
          simp only [Bool.or_eq_true, not_or, Bool.not_eq_true] at hc1
          obtain ⟨hcf, hwf⟩ := hc1
          by_cases hap : all_branches_pushed b = true
          · rw [if_pos hap]
            rw [pushable_sound_run]
            simp [Node.pushable, unpush_sound _ hn, unpush_sound_run rest _ hrest]
          · rw [if_neg hap]
            rw [pushable_sound_run]
            have hsound : pushable_sound (.mk c b a true ss) = true := by
              rw [pushable_sound]
              exact unpush_sound_stacks ss hss
            simp only [Bool.not_eq_true] at hap
            simp [Node.pushable, Node.action, Node.branches, Node.local_commit,
              hcf, hwf, hprot, hb, hap, hsound,
              unpush_sound_run rest _ hrest]

theorem pushable_stacks_sound : ∀ ss : List (List Node),
    all_nodes_stacks (fun m => !m.pushable) ss = true →
    pushable_sound_stacks (pushable_stacks ss) = true
  | [], _ => by rw [pushable_stacks, pushable_sound_stacks]
  | s :: rest, h => by
    obtain ⟨hs, hrest⟩ := all_nodes_stacks_cons h
    rw [pushable_stacks]
    rw [pushable_sound_stacks]
    have hhead := pushable_stack_sound s false hs
    simp only [Bool.not_false] at hhead
    simp [hhead, pushable_stacks_sound rest hrest]
end

/-- C3 (amended): after the pushable pass on a graph with no pushable flag
set, every node marked pushable is non-protected, carries at least one
branch, is itself not WIP, has at least one branch differing from its push
target (not: all branches differ, as the claim stated), and every earlier
node of its straight run is protected/rebase or inert (non-WIP, branchless,
stackless) — in particular nodes after a divergence or after the first
branch-carrying node of a run are never marked; the root itself is never
marked. -/
theorem pushable_marked_conditions (g : Node)
    (h : all_nodes (fun m => !m.pushable) g = true) :
    pushable_sound (pushable g) = true ∧ (pushable g).pushable = false := by
  obtain ⟨c, b, a, p, ss⟩ := g
  have hp := all_nodes_here h
  simp only [Node.pushable, Bool.not_eq_true'] at hp
  subst hp
  have hss := all_nodes_substacks h
  rw [pushable]
  split
  · refine ⟨?_, by simp [Node.pushable]⟩
    rw [pushable_sound]
    exact pushable_stacks_sound ss hss
  · refine ⟨?_, by simp [Node.pushable]⟩
    rw [pushable_sound]
    exact unpush_sound_stacks ss hss

/-- Witness for C3 on a concrete graph. -/
theorem pushable_marked_conditions_witness :
    all_nodes (fun m => !m.pushable)
      (.mk ⟨0, 0, false⟩ [] .Protected false
        [[.mk ⟨1, 1, false⟩ [⟨"b1", 5, some 5⟩, ⟨"b2", 6, none⟩]
            .Pick false []]]) = true ∧
    (pushable_sound (pushable
      (.mk ⟨0, 0, false⟩ [] .Protected false
        [[.mk ⟨1, 1, false⟩ [⟨"b1", 5, some 5⟩, ⟨"b2", 6, none⟩]
            .Pick false []]])) = true ∧
     (pushable (.mk ⟨0, 0, false⟩ [] .Protected false
        [[.mk ⟨1, 1, false⟩ [⟨"b1", 5, some 5⟩, ⟨"b2", 6, none⟩]
            .Pick false []]])).pushable = false) :=
  ⟨rfl, pushable_marked_conditions
    (.mk ⟨0, 0, false⟩ [] .Protected false
      [[.mk ⟨1, 1, false⟩ [⟨"b1", 5, some 5⟩, ⟨"b2", 6, none⟩]
          .Pick false []]]) rfl⟩

/-- C3 counterexample to the claim as stated: a node with two branches, one
of which already matches its push target, is still marked pushable (the code
requires only that not all branches are already pushed), contradicting
condition (c) of the claim. -/
theorem pushable_iff_counterexample :
    pushable (.mk ⟨0, 0, false⟩ [] .Protected false
        [[.mk ⟨1, 1, false⟩ [⟨"b1", 5, some 5⟩, ⟨"b2", 6, none⟩]
            .Pick false []]])
      = .mk ⟨0, 0, false⟩ [] .Protected false
          [[.mk ⟨1, 1, false⟩ [⟨"b1", 5, some 5⟩, ⟨"b2", 6, none⟩]
              .Pick true []]] ∧
    (Branch.mk "b1" 5 (some 5)).push_id = some (Branch.mk "b1" 5 (some 5)).id :=
  ⟨by rw [pushable]
      simp [pushable_stacks, pushable_stack, all_branches_pushed,
        Action.is_protected, Action.is_rebase], rfl⟩

mutual
/-- The pushable pass marks at most one node per straight run. -/
theorem pushable_stack_amop : ∀ (s : List Node) (cause : Bool),
    all_nodes_run (fun m => !m.pushable) s = true →
    run_pushable_count (pushable_stack cause s) ≤ 1 ∧
      at_most_one_pushable_run (pushable_stack cause s) = true
  | [], _, _ => ⟨by rw [pushable_stack]; simp [run_pushable_count],
      by rw [pushable_stack, at_most_one_pushable_run]⟩
  | .mk c b a p ss :: rest, cause, h => by
    obtain ⟨hn, hrest⟩ := all_nodes_run_cons h
    have hp := all_nodes_here hn
    simp only [Node.pushable, Bool.not_eq_true'] at hp
    subst hp
    have hss := all_nodes_substacks hn
    rw [pushable_stack]
    by_cases hprot : (a.is_protected || a.is_rebase) = true
    · rw [if_pos hprot]
      obtain ⟨ihc, ihr⟩ := pushable_stack_amop rest cause hrest
      refine ⟨?_, ?_⟩
      · simpa [run_pushable_count, Node.pushable] using ihc
      · rw [at_most_one_pushable_run]
        have hhead : at_most_one_pushable (.mk c b a false (pushable_stacks ss)) = true := by
          rw [at_most_one_pushable]
          exact pushable_stacks_amop ss hss
        simp [hhead, ihr]
    · rw [if_neg hprot]
      by_cases hb : b.isEmpty = true
      · rw [if_pos hb]
        obtain ⟨ihc, ihr⟩ := pushable_stack_amop rest (cause || c.wip || !ss.isEmpty) hrest
        refine ⟨?_, ?_⟩
        · simpa [run_pushable_count, Node.pushable] using ihc
        · rw [at_most_one_pushable_run]
          simp [unpush_amop _ hn, ihr]
      · rw [if_neg hb]
        have hrest0 := run_pushable_count_zero hrest
        by_cases hc1 : (cause || c.wip) = true
        · rw [if_pos hc1]
          refine ⟨?_, ?_⟩
          · simp [run_pushable_count, Node.pushable, hrest0]
          · rw [at_most_one_pushable_run]
            simp [unpush_amop _ hn, unpush_amop_run rest hrest]
        · rw [if_neg hc1]
          by_cases hap : all_branches_pushed b = true
          · rw [if_pos hap]
            refine ⟨?_, ?_⟩
            · simp [run_pushable_count, Node.pushable, hrest0]
            · rw [at_most_one_pushable_run]
              simp [unpush_amop _ hn, unpush_amop_run rest hrest]
          · rw [if_neg hap]
            refine ⟨?_, ?_⟩
            · simp [run_pushable_count, Node.pushable, hrest0]
            · rw [at_most_one_pushable_run]
              have hhead : at_most_one_pushable (.mk c b a true ss) = true := by
                rw [at_most_one_pushable]
                exact unpush_amop_stacks ss hss
              simp [hhead, unpush_amop_run rest hrest]

theorem pushable_stacks_amop : ∀ ss : List (List Node),
    all_nodes_stacks (fun m => !m.pushable) ss = true →
    at_most_one_pushable_stacks (pushable_stacks ss) = true
  | [], _ => by rw [pushable_stacks, at_most_one_pushable_stacks]
  | s :: rest, h => by
    obtain ⟨hs, hrest⟩ := all_nodes_stacks_cons h
    obtain ⟨hc, hr⟩ := pushable_stack_amop s false hs
    rw [pushable_stacks]
    rw [at_most_one_pushable_stacks]
    simp [hc, hr, pushable_stacks_amop rest hrest]
end

/-- C10: starting from a graph with no pushable flag set, the pushable pass
marks at most one node per straight run (the scan returns at the first
non-protected branch-carrying node, so later branch nodes of the run and the
subtree of the marked node stay unmarked), and the root is never marked. -/
theorem pushable_at_most_one_per_run (g : Node)
    (h : all_nodes (fun m => !m.pushable) g = true) :
    at_most_one_pushable (pushable g) = true ∧ (pushable g).pushable = false := by
  obtain ⟨c, b, a, p, ss⟩ := g
  have hp := all_nodes_here h
  simp only [Node.pushable, Bool.not_eq_true'] at hp
  subst hp
  have hss := all_nodes_substacks h
  rw [pushable]
  split
  · refine ⟨?_, by simp [Node.pushable]⟩
    rw [at_most_one_pushable]
    exact pushable_stacks_amop ss hss
  · refine ⟨?_, by simp [Node.pushable]⟩
    rw [at_most_one_pushable]
    exact unpush_amop_stacks ss hss

/-- Witness for C10 on a concrete graph with two branch-carrying nodes in
one run: only the first is marked. -/
theorem pushable_at_most_one_per_run_witness :
    all_nodes (fun m => !m.pushable)
      (.mk ⟨0, 0, false⟩ [] .Protected false
        [[.mk ⟨1, 1, false⟩ [⟨"a", 1, none⟩] .Pick false [],
          .mk ⟨2, 2, false⟩ [⟨"b", 2, none⟩] .Pick false []]]) = true ∧
    (at_most_one_pushable (pushable
      (.mk ⟨0, 0, false⟩ [] .Protected false
        [[.mk ⟨1, 1, false⟩ [⟨"a", 1, none⟩] .Pick false [],
          .mk ⟨2, 2, false⟩ [⟨"b", 2, none⟩] .Pick false []]])) = true ∧
     (pushable (.mk ⟨0, 0, false⟩ [] .Protected false
        [[.mk ⟨1, 1, false⟩ [⟨"a", 1, none⟩] .Pick false [],
          .mk ⟨2, 2, false⟩ [⟨"b", 2, none⟩] .Pick false []]])).pushable
        = false) :=
  ⟨rfl, pushable_at_most_one_per_run
    (.mk ⟨0, 0, false⟩ [] .Protected false
      [[.mk ⟨1, 1, false⟩ [⟨"a", 1, none⟩] .Pick false [],
        .mk ⟨2, 2, false⟩ [⟨"b", 2, none⟩] .Pick false []]]) rfl⟩

/-! ### Claim C6: protection is upward closed -/

mutual
/-- Combining an existential and a universal tree fact yields a node with
both properties. -/
theorem any_all_node : ∀ {q r : Node → Bool} (n : Node),
    any_node q n = true → all_nodes r n = true →
    ∃ m : Node, q m = true ∧ r m = true
  | q, r, .mk c b a p ss, hq, hr => by
    rw [any_node] at hq
    rw [all_nodes] at hr
    simp only [Bool.or_eq_true] at hq
    simp only [Bool.and_eq_true] at hr
    rcases hq with hq | hq
    · exact ⟨.mk c b a p ss, hq, hr.1⟩
    · exact any_all_stacks ss hq hr.2

theorem any_all_run : ∀ {q r : Node → Bool} (s : List Node),
    any_node_run q s = true → all_nodes_run r s = true →
    ∃ m : Node, q m = true ∧ r m = true
  | _, _, [], hq, _ => by rw [any_node_run] at hq; exact absurd hq (by simp)
  | q, r, n :: rest, hq, hr => by
    rw [any_node_run] at hq
    obtain ⟨hn, hrest⟩ := all_nodes_run_cons hr
    simp only [Bool.or_eq_true] at hq
    rcases hq with hq | hq
    · exact any_all_node n hq hn
    · exact any_all_run rest hq hrest

theorem any_all_stacks : ∀ {q r : Node → Bool} (ss : List (List Node)),
    any_node_stacks q ss = true → all_nodes_stacks r ss = true →
    ∃ m : Node, q m = true ∧ r m = true
  | _, _, [], hq, _ => by rw [any_node_stacks] at hq; exact absurd hq (by simp)
  | q, r, s :: rest, hq, hr => by
    rw [any_node_stacks] at hq
    obtain ⟨hs, hrest⟩ := all_nodes_stacks_cons hr
    simp only [Bool.or_eq_true] at hq
    rcases hq with hq | hq
    · exact any_all_run s hq hs
    · exact any_all_stacks rest hq hrest
end

/-- A node processed with `descendant_protected = true` is marked. -/
theorem protect_node_dp_marked (prot : List Nat) (n : Node) :
    ((protect_node prot true n).1).action = Action.Protected := by
  obtain ⟨c, b, a, p, ss⟩ := n
  rw [protect_node]
  simp [Node.action]

mutual
/-- Protection reported by the pass originates at some node whose commit is
a protected branch tip. -/
theorem protect_node_origin : ∀ (prot : List Nat) (dp : Bool) (n : Node),
    (protect_node prot dp n).2 = true →
    dp = true ∨ any_node (tip_protected prot) n = true
  | prot, dp, .mk c b a p ss, h => by
    rw [protect_node] at h
    by_cases hc : (dp || (protect_stacks prot ss).2 || prot.contains c.id) = true
    · simp only [Bool.or_eq_true] at hc
      rcases hc with (hdp | hst) | hself
      · exact Or.inl hdp
      · refine Or.inr ?_
        rw [any_node]
        rw [protect_stacks_origin prot ss hst]
        simp
      · refine Or.inr ?_
        rw [any_node]
        have : tip_protected prot (.mk c b a p ss) = true := by
          rw [tip_protected]
          simpa [Node.local_commit] using hself
        rw [this]
        simp
    · rw [if_neg hc] at h
      simp at h

theorem protect_run_origin : ∀ (prot : List Nat) (s : List Node),
    (protect_branches_internal prot s).2 = true →
    any_node_run (tip_protected prot) s = true
  | prot, [], h => by rw [protect_branches_internal] at h; simp at h
  | prot, n :: rest, h => by
    rw [protect_branches_internal] at h
    rcases protect_node_origin prot (protect_branches_internal prot rest).2 n h
      with hdp | hany
    · rw [any_node_run]
      rw [protect_run_origin prot rest hdp]
      simp
    · rw [any_node_run]
      rw [hany]
      simp

theorem protect_stacks_origin : ∀ (prot : List Nat) (ss : List (List Node)),
    (protect_stacks prot ss).2 = true →
    any_node_stacks (tip_protected prot) ss = true
  | prot, [], h => by rw [protect_stacks] at h; simp at h
  | prot, s :: rest, h => by
    rw [protect_stacks] at h
    simp only [Bool.or_eq_true] at h
    rw [any_node_stacks]
    rcases h with h | h
    · rw [protect_run_origin prot s h]
      simp
    · rw [protect_stacks_origin prot rest h]
      simp
end

mutual
/-- On a fresh graph (all actions `Pick`), the internal protect pass yields
upward-closed protection, and its flag equals "some output node is
protected". -/
theorem protect_node_closed : ∀ (prot : List Nat) (dp : Bool) (n : Node),
    all_nodes (fun m => m.action == Action.Pick) n = true →
    protection_closed (protect_node prot dp n).1 = true ∧
      (protect_node prot dp n).2 =
        (dp || any_node (fun m => m.action.is_protected)
          (protect_node prot dp n).1)
  | prot, dp, .mk c b a p ss, h => by
    have hfr := all_nodes_here h
    simp only [Node.action, beq_iff_eq] at hfr
    subst hfr
    have hss := all_nodes_substacks h
    obtain ⟨hcl, heq⟩ := protect_stacks_closed prot ss hss
    rw [protect_node]
    by_cases hc : (dp || (protect_stacks prot ss).2 || prot.contains c.id) = true
    · rw [if_pos hc]
      constructor
      · rw [protection_closed]
        simp [hcl, Action.is_protected]
      · rw [any_node]
        simp [Node.action, Action.is_protected]
    · rw [if_neg hc]
      simp only [Bool.or_eq_true, not_or, Bool.not_eq_true] at hc
      obtain ⟨⟨hdp, hst⟩, hself⟩ := hc
      have hanyf : any_node_stacks (fun m => m.action.is_protected)
          (protect_stacks prot ss).1 = false := by
        rw [← heq]
        exact hst
      constructor
      · rw [protection_closed]
        simp [hcl, hanyf]
      · rw [any_node]
        rw [hanyf]
        simp [Node.action, hdp, Action.is_protected]

theorem protect_run_closed : ∀ (prot : List Nat) (s : List Node),
    all_nodes_run (fun m => m.action == Action.Pick) s = true →
    protection_closed_run (protect_branches_internal prot s).1 = true ∧
      (protect_branches_internal prot s).2 =
        any_node_run (fun m => m.action.is_protected)
          (protect_branches_internal prot s).1
  | prot, [], _ => by
    rw [protect_branches_internal]
    exact ⟨rfl, by rw [any_node_run]⟩
  | prot, n :: rest, h => by
    obtain ⟨hn, hrest⟩ := all_nodes_run_cons h
    obtain ⟨ihcl, iheq⟩ := protect_run_closed prot rest hrest
    obtain ⟨hncl, hneq⟩ := protect_node_closed prot
      (protect_branches_internal prot rest).2 n hn
    rw [protect_branches_internal]
    constructor
    · rw [protection_closed_run]
      simp only [Bool.and_eq_true]
      refine ⟨⟨hncl, ihcl⟩, ?_⟩
      by_cases hany : any_node_run (fun m => m.action.is_protected)
          (protect_branches_internal prot rest).1 = true
      · have hdp : (protect_branches_internal prot rest).2 = true := by
          rw [iheq]
          exact hany
        rw [hdp]
        have hmark := protect_node_dp_marked prot n
        rw [hmark]
        simp [Action.is_protected]
      · simp only [Bool.not_eq_true] at hany
        simp [hany]
    · rw [any_node_run]
      rw [hneq, iheq]
      exact Bool.or_comm _ _

theorem protect_stacks_closed : ∀ (prot : List Nat) (ss : List (List Node)),
    all_nodes_stacks (fun m => m.action == Action.Pick) ss = true →
    protection_closed_stacks (protect_stacks prot ss).1 = true ∧
      (protect_stacks prot ss).2 =
        any_node_stacks (fun m => m.action.is_protected)
          (protect_stacks prot ss).1
  | prot, [], _ => by
    rw [protect_stacks]
    exact ⟨rfl, by rw [any_node_stacks]⟩
  | prot, s :: rest, h => by
    obtain ⟨hs, hrest⟩ := all_nodes_stacks_cons h
    obtain ⟨scl, seq⟩ := protect_run_closed prot s hs
    obtain ⟨rcl, req⟩ := protect_stacks_closed prot rest hrest
    rw [protect_stacks]
    constructor
    · rw [protection_closed_stacks]
      simp [scl, rcl]
    · rw [any_node_stacks]
      rw [seq, req]
end

/-- C6: on a fresh graph (all actions `Pick`, as `Graph::from_branches`
builds them) over a repository whose `merge_base` is consistent with the
graph shape (every graph node that is a protected tip has the root's commit
as merge base with the root), `protect_branches` yields upward-closed
protection — every ancestor of a protected node, the root included, is
protected — and the root is protected whenever the merge base of its commit
and some protected tip equals the root's commit. -/
theorem protect_branches_upward_closed (mb : Nat → Nat → Option Nat)
    (prot : List Nat) (g : Node)
    (hfresh : all_nodes (fun m => m.action == Action.Pick) g = true)
    (hrepo : all_nodes (fun m => !(tip_protected prot m) ||
      (mb g.local_commit.id m.local_commit.id == some g.local_commit.id)) g
        = true) :
    protection_closed (protect_branches mb prot g) = true ∧
    (∀ oid ∈ prot, mb g.local_commit.id oid = some g.local_commit.id →
      (protect_branches mb prot g).action = Action.Protected) := by
  obtain ⟨c, b, a, p, ss⟩ := g
  have hss := all_nodes_substacks hfresh
  have hrss := all_nodes_substacks hrepo
  obtain ⟨hcl, heq⟩ := protect_stacks_closed prot ss hss
  rw [protect_branches]
  constructor
  · rw [protection_closed]
    simp only [Bool.and_eq_true]
    refine ⟨hcl, ?_⟩
    by_cases hany : any_node_stacks (fun m => m.action.is_protected)
        (protect_stacks prot ss).1 = true
    · have hflag : (protect_stacks prot ss).2 = true := by
        rw [heq]
        exact hany
      have horig := protect_stacks_origin prot ss hflag
      obtain ⟨m, hm1, hm2⟩ := any_all_stacks ss horig hrss
      obtain ⟨mc, mbr, ma, mp, mss⟩ := m
      rw [hm1] at hm2
      rw [tip_protected] at hm1
      simp only [Node.local_commit] at hm1
      simp only [Bool.not_true, Bool.false_or, beq_iff_eq,
        Node.local_commit] at hm2
      have hmem : mc.id ∈ prot := by simpa using hm1
      have hroot : prot.any (fun oid => mb c.id oid == some c.id) = true := by
        rw [List.any_eq_true]
        exact ⟨mc.id, hmem, by simp [hm2]⟩
      rw [if_pos hroot]
      simp [Action.is_protected]
    · simp only [Bool.not_eq_true] at hany
      simp [hany]
  · intro oid hmem hmb
    simp only [Node.local_commit] at hmb
    have hroot : prot.any (fun x => mb c.id x == some c.id) = true := by
      rw [List.any_eq_true]
      refine ⟨oid, hmem, ?_⟩
      simp [hmb]
    rw [if_pos hroot]
    rw [Node.action]

/-- Witness for C6 on a concrete graph with a protected tip inside the
stack. -/
theorem protect_branches_upward_closed_witness :
    all_nodes (fun m => m.action == Action.Pick)
      (.mk ⟨10, 0, false⟩ [] .Pick false
        [[.mk ⟨11, 0, false⟩ [] .Pick false []]]) = true ∧
    all_nodes (fun m => !(tip_protected [11] m) ||
      ((fun a b => if a = 10 && b = 11 then some 10 else none)
          (Node.mk ⟨10, 0, false⟩ [] .Pick false
            [[.mk ⟨11, 0, false⟩ [] .Pick false []]]).local_commit.id
          m.local_commit.id ==
        some (Node.mk ⟨10, 0, false⟩ [] .Pick false
          [[.mk ⟨11, 0, false⟩ [] .Pick false []]]).local_commit.id))
      (.mk ⟨10, 0, false⟩ [] .Pick false
        [[.mk ⟨11, 0, false⟩ [] .Pick false []]]) = true ∧
    protection_closed (protect_branches
      (fun a b => if a = 10 && b = 11 then some 10 else none) [11]
      (.mk ⟨10, 0, false⟩ [] .Pick false
        [[.mk ⟨11, 0, false⟩ [] .Pick false []]])) = true :=
  ⟨rfl, rfl,
    (protect_branches_upward_closed
      (fun a b => if a = 10 && b = 11 then some 10 else none) [11]
      (.mk ⟨10, 0, false⟩ [] .Pick false
        [[.mk ⟨11, 0, false⟩ [] .Pick false []]]) rfl rfl).1⟩

/-! ### Claim C4: drop-by-tree-id drops only the scanned prefix -/

/-- A protected or rebase action is not `Pick`. -/
theorem protected_ne_pick {a : Action}
    (h : (a.is_protected || a.is_rebase) = true) : a ≠ Action.Pick := by
  cases a <;> simp_all [Action.is_protected, Action.is_rebase]

/-- `drop_node` keeps the node's action. -/
theorem drop_node_action (tids : List Nat) (n : Node) :
    ((drop_node tids n).1).action = n.action := by
  obtain ⟨c, b, a, p, ss⟩ := n
  rw [drop_node]
  rfl

/-- `drop_node` keeps the node's commit. -/
theorem drop_node_commit (tids : List Nat) (n : Node) :
    ((drop_node tids n).1).local_commit = n.local_commit := by
  obtain ⟨c, b, a, p, ss⟩ := n
  rw [drop_node]
  rfl

/-- `attach_at` keeps the length of the run. -/
theorem attach_at_length : ∀ (s : List Node) (i : Nat) (m : List (List Node)),
    (attach_at s i m).length = s.length
  | [], _, _ => rfl
  | .mk c b a p ss :: rest, 0, m => by rw [attach_at]; rfl
  | n :: rest, i + 1, m => by
    obtain ⟨c, b, a, p, ss⟩ := n
    rw [attach_at]
    simp [attach_at_length rest i m]

/-- `attach_at` keeps every node's action. -/
theorem attach_at_action : ∀ (s : List Node) (i k : Nat) (m : List (List Node)),
    ((attach_at s i m).getD k default).action = (s.getD k default).action
  | [], _, _, _ => by rw [attach_at]
  | .mk c b a p ss :: rest, 0, 0, m => by rw [attach_at]; rfl
  | .mk c b a p ss :: rest, 0, k + 1, m => by rw [attach_at]; rfl
  | .mk c b a p ss :: rest, i + 1, 0, m => by rw [attach_at]; rfl
  | .mk c b a p ss :: rest, i + 1, k + 1, m => by
    rw [attach_at]
    simpa using attach_at_action rest i k m

/-- `attach_at` keeps every node's commit. -/
theorem attach_at_commit : ∀ (s : List Node) (i k : Nat) (m : List (List Node)),
    ((attach_at s i m).getD k default).local_commit
      = (s.getD k default).local_commit
  | [], _, _, _ => by rw [attach_at]
  | .mk c b a p ss :: rest, 0, 0, m => by rw [attach_at]; rfl
  | .mk c b a p ss :: rest, 0, k + 1, m => by rw [attach_at]; rfl
  | .mk c b a p ss :: rest, i + 1, 0, m => by rw [attach_at]; rfl
  | .mk c b a p ss :: rest, i + 1, k + 1, m => by
    rw [attach_at]
    simpa using attach_at_commit rest i k m

/-- A `Pick` node with a tree id in `onto` that survives the scan has a
blocking predecessor in its run: an earlier non-matching `Pick` or an
earlier pre-existing `Delete`. -/
theorem drop_scan_prefix (tids : List Nat) :
    ∀ (s : List Node) (i : Nat),
    i < (drop_scan tids s).1.length →
    (((drop_scan tids s).1.getD i default).action = Action.Pick) →
    (tids.contains ((drop_scan tids s).1.getD i default).local_commit.tree_id
      = true) →
    ∃ j, j < i ∧ ((s.getD j default).action = Action.Delete ∨
      ((s.getD j default).action = Action.Pick ∧
        tids.contains (s.getD j default).local_commit.tree_id = false)) := by
  intro s
  induction s with
  | nil =>
    intro i hi _ _
    rw [drop_scan] at hi
    simp at hi
  | cons n rest ih =>
    intro i hi hpick htree
    rw [drop_scan] at hi hpick htree
    by_cases hprot : (n.action.is_protected || n.action.is_rebase) = true
    · rw [if_pos hprot] at hi hpick htree
      cases i with
      | zero =>
        simp only [List.getD_cons_zero] at hpick
        rw [drop_node_action] at hpick
        exact absurd hpick (protected_ne_pick hprot)
      | succ k =>
        simp only [List.length_cons, Nat.succ_lt_succ_iff] at hi
        simp only [List.getD_cons_succ] at hpick htree
        obtain ⟨j, hj, hblock⟩ := ih k hi hpick htree
        refine ⟨j + 1, by omega, ?_⟩
        simpa using hblock
    · rw [if_neg hprot] at hi hpick htree
      by_cases hpk : (n.action == Action.Pick) = true
      · rw [if_pos hpk] at hi hpick htree
        by_cases hmatch : tids.contains n.local_commit.tree_id = true
        · rw [if_pos hmatch] at hi hpick htree
          cases i with
          | zero =>
            simp only [List.getD_cons_zero, Node.action] at hpick
            exact absurd hpick (by simp)
          | succ k =>
            simp only [List.length_cons, Nat.succ_lt_succ_iff] at hi
            simp only [List.getD_cons_succ] at hpick htree
            obtain ⟨j, hj, hblock⟩ := ih k hi hpick htree
            refine ⟨j + 1, by omega, ?_⟩
            simpa using hblock
        · rw [if_neg hmatch] at hi hpick htree
          cases i with
          | zero =>
            simp only [List.getD_cons_zero] at htree
            exact absurd htree hmatch
          | succ k =>
            refine ⟨0, by omega, Or.inr ⟨?_, ?_⟩⟩
            · simp only [List.getD_cons_zero]
              simpa using hpk
            · simp only [List.getD_cons_zero]
              simpa using hmatch
      · rw [if_neg hpk] at hi hpick htree
        have hdel : n.action = Action.Delete := by
          obtain ⟨c, b, a, p, ss⟩ := n
          simp only [Node.action] at hprot hpk ⊢
          cases a <;> simp_all [Action.is_protected, Action.is_rebase]
        cases i with
        | zero =>
          simp only [List.getD_cons_zero] at hpick
          rw [hdel] at hpick
          exact absurd hpick (by simp)
        | succ k =>
          refine ⟨0, by omega, Or.inl ?_⟩
          simpa using hdel

/-- C4 (amended): `stack_drop_by_tree_id` deletes only the maximal scanned
prefix: after the pass, a `Pick` node whose tree id is in the `onto` set can
survive in a run only behind a blocker — an earlier `Pick` whose tree id is
not in `onto` (the scan stops there) or an earlier pre-existing `Delete`.
Within the scanned prefix no matching `Pick` survives. -/
theorem stack_drop_scanned_prefix (tids : List Nat) (s : List Node) (i : Nat)
    (hi : i < (stack_drop_by_tree_id tids s).1.length)
    (hpick : ((stack_drop_by_tree_id tids s).1.getD i default).action
      = Action.Pick)
    (htree : tids.contains
      ((stack_drop_by_tree_id tids s).1.getD i default).local_commit.tree_id
      = true) :
    ∃ j, j < i ∧ ((s.getD j default).action = Action.Delete ∨
      ((s.getD j default).action = Action.Pick ∧
        tids.contains (s.getD j default).local_commit.tree_id = false)) := by
  rw [stack_drop_by_tree_id] at hi hpick htree
  rcases hlp : (drop_scan tids s).2.2 with _ | i0
  · rw [hlp] at hi hpick htree
    exact drop_scan_prefix tids s i hi hpick htree
  · rw [hlp] at hi hpick htree
    simp only at hi hpick htree
    rw [attach_at_length] at hi
    rw [attach_at_action] at hpick
    rw [attach_at_commit] at htree
    exact drop_scan_prefix tids s i hi hpick htree

/-- Witness for C4 on a concrete run: the surviving matching pick at index 1
is blocked by the non-matching pick at index 0. -/
theorem stack_drop_scanned_prefix_witness :
    1 < (stack_drop_by_tree_id [7]
      [.mk ⟨1, 5, false⟩ [] .Pick false [],
       .mk ⟨2, 7, false⟩ [] .Pick false []]).1.length ∧
    ((stack_drop_by_tree_id [7]
      [.mk ⟨1, 5, false⟩ [] .Pick false [],
       .mk ⟨2, 7, false⟩ [] .Pick false []]).1.getD 1 default).action
      = Action.Pick ∧
    ([7] : List Nat).contains ((stack_drop_by_tree_id [7]
      [.mk ⟨1, 5, false⟩ [] .Pick false [],
       .mk ⟨2, 7, false⟩ [] .Pick false []]).1.getD 1
        default).local_commit.tree_id = true ∧
    (∃ j, j < 1 ∧
      ((([.mk ⟨1, 5, false⟩ [] .Pick false [],
          .mk ⟨2, 7, false⟩ [] .Pick false []] : List Node).getD j
            default).action = Action.Delete ∨
        ((([.mk ⟨1, 5, false⟩ [] .Pick false [],
            .mk ⟨2, 7, false⟩ [] .Pick false []] : List Node).getD j
              default).action = Action.Pick ∧
          ([7] : List Nat).contains
            (([.mk ⟨1, 5, false⟩ [] .Pick false [],
               .mk ⟨2, 7, false⟩ [] .Pick false []] : List Node).getD j
                 default).local_commit.tree_id = false))) :=
  ⟨by decide, rfl, rfl,
    stack_drop_scanned_prefix [7]
      [.mk ⟨1, 5, false⟩ [] .Pick false [],
       .mk ⟨2, 7, false⟩ [] .Pick false []] 1 (by decide) rfl rfl⟩

/-- C4 counterexample to the claim as stated: the scan breaks at the first
pick whose tree id is not in `onto` (tree 5), so the later pick with tree 7
survives although 7 is a tree id of the `onto` commits. -/
theorem drop_by_tree_id_counterexample :
    drop_by_tree_id [⟨100, 7, false⟩]
      (.mk ⟨0, 0, false⟩ [] .Protected false
        [[.mk ⟨1, 5, false⟩ [] .Pick false [],
          .mk ⟨2, 7, false⟩ [] .Pick false []]])
    = .mk ⟨0, 0, false⟩ [] .Protected false
        [[.mk ⟨1, 5, false⟩ [] .Pick false [],
          .mk ⟨2, 7, false⟩ [] .Pick false []]] ∧
    (Node.mk ⟨2, 7, false⟩ [] .Pick false []).action = Action.Pick ∧
    (([Commit.mk 100 7 false].map Commit.tree_id).contains
      (Node.mk ⟨2, 7, false⟩ [] .Pick false []).local_commit.tree_id
      = true) :=
  ⟨rfl, rfl, rfl⟩

/-! ### Claim C7: deletion preserves descendants -/

theorem sum_nodes_stacks_append (f : Node → Nat) :
    ∀ (x y : List (List Node)),
    sum_nodes_stacks f (x ++ y) = sum_nodes_stacks f x + sum_nodes_stacks f y
  | [], y => by rw [sum_nodes_stacks]; simp
  | s :: rest, y => by
    rw [List.cons_append, sum_nodes_stacks, sum_nodes_stacks,
      sum_nodes_stacks_append f rest y]
    omega

theorem all_nodes_stacks_append {q : Node → Bool} :
    ∀ {x y : List (List Node)},
    all_nodes_stacks q x = true → all_nodes_stacks q y = true →
    all_nodes_stacks q (x ++ y) = true
  | [], y, _, hy => by simpa using hy
  | s :: rest, y, hx, hy => by
    obtain ⟨hs, hrest⟩ := all_nodes_stacks_cons hx
    rw [List.cons_append, all_nodes_stacks]
    simp [hs, all_nodes_stacks_append hrest hy]

/-- The last-protected index reported by the scan is a valid index. -/
theorem drop_scan_lp_lt (tids : List Nat) :
    ∀ (s : List Node) (i : Nat),
    (drop_scan tids s).2.2 = some i → i < (drop_scan tids s).1.length := by
  intro s
  induction s with
  | nil =>
    intro i h
    rw [drop_scan] at h
    simp at h
  | cons n rest ih =>
    intro i h
    rw [drop_scan] at h ⊢
    by_cases hprot : (n.action.is_protected || n.action.is_rebase) = true
    · rw [if_pos hprot] at h ⊢
      simp only at h ⊢
      rcases hlp : (drop_scan tids rest).2.2 with _ | j
      · rw [hlp] at h
        simp only at h
        cases h
        simp
      · rw [hlp] at h
        simp only at h
        cases h
        have := ih j hlp
        simp only [List.length_cons]
        omega
    · rw [if_neg hprot] at h ⊢
      by_cases hpk : (n.action == Action.Pick) = true
      · rw [if_pos hpk] at h ⊢
        by_cases hmatch : tids.contains n.local_commit.tree_id = true
        · rw [if_pos hmatch] at h ⊢
          simp only [Option.map_eq_some'] at h
          obtain ⟨j, hj, rfl⟩ := h
          have := ih j hj
          simp only [List.length_cons]
          omega
        · rw [if_neg hmatch] at h
          simp at h
      · rw [if_neg hpk] at h
        simp at h

/-- The node at the last-protected index of the scanned run is protected or
a rebase node. -/
theorem drop_scan_lp_protected (tids : List Nat) :
    ∀ (s : List Node) (i : Nat),
    (drop_scan tids s).2.2 = some i →
    (((drop_scan tids s).1.getD i default).action.is_protected ||
      ((drop_scan tids s).1.getD i default).action.is_rebase) = true := by
  intro s
  induction s with
  | nil =>
    intro i h
    rw [drop_scan] at h
    simp at h
  | cons n rest ih =>
    intro i h
    rw [drop_scan] at h ⊢
    by_cases hprot : (n.action.is_protected || n.action.is_rebase) = true
    · rw [if_pos hprot] at h ⊢
      simp only at h ⊢
      rcases hlp : (drop_scan tids rest).2.2 with _ | j
      · rw [hlp] at h
        simp only at h
        cases h
        simpa [List.getD_cons_zero, drop_node_action] using hprot
      · rw [hlp] at h
        simp only at h
        cases h
        simpa [List.getD_cons_succ] using ih j hlp
    · rw [if_neg hprot] at h ⊢
      by_cases hpk : (n.action == Action.Pick) = true
      · rw [if_pos hpk] at h ⊢
        by_cases hmatch : tids.contains n.local_commit.tree_id = true
        · rw [if_pos hmatch] at h ⊢
          simp only [Option.map_eq_some'] at h
          obtain ⟨j, hj, rfl⟩ := h
          simpa [List.getD_cons_succ] using ih j hj
        · rw [if_neg hmatch] at h
          simp at h
      · rw [if_neg hpk] at h
        simp at h

/-- Attaching stacks at a valid index adds their sum to the run's sum, for
any per-commit weight. -/
theorem attach_at_sum (fc : Commit → Nat) :
    ∀ (s : List Node) (i : Nat) (m : List (List Node)), i < s.length →
    sum_nodes_run (commit_weight fc) (attach_at s i m)
      = sum_nodes_run (commit_weight fc) s +
        sum_nodes_stacks (commit_weight fc) m
  | [], i, m, hi => by simp at hi
  | .mk c b a p ss :: rest, 0, m, _ => by
    rw [attach_at, sum_nodes_run, sum_nodes_run, sum_nodes, sum_nodes,
      sum_nodes_stacks_append]
    simp only [commit_weight]
    omega
  | .mk c b a p ss :: rest, i + 1, m, hi => by
    rw [attach_at, sum_nodes_run, sum_nodes_run,
      attach_at_sum fc rest i m (by simpa using hi)]
    omega

/-- Attaching delete-empty stacks at a protected/rebase node keeps every
`Delete` node stackless. -/
theorem attach_at_delete_empty :
    ∀ (s : List Node) (i : Nat) (m : List (List Node)),
    all_nodes_run (fun x => !(x.action == Action.Delete) ||
      x.substacks.isEmpty) s = true →
    all_nodes_stacks (fun x => !(x.action == Action.Delete) ||
      x.substacks.isEmpty) m = true →
    (((s.getD i default).action.is_protected ||
      (s.getD i default).action.is_rebase) = true) →
    all_nodes_run (fun x => !(x.action == Action.Delete) ||
      x.substacks.isEmpty) (attach_at s i m) = true
  | [], i, m, hs, hm, hp => by simpa using hs
  | .mk c b a p ss :: rest, 0, m, hs, hm, hp => by
    obtain ⟨hn, hrest⟩ := all_nodes_run_cons hs
    rw [attach_at, all_nodes_run]
    simp only [Bool.and_eq_true]
    refine ⟨?_, hrest⟩
    rw [all_nodes]
    simp only [Bool.and_eq_true]
    have hnd : ¬a = Action.Delete := by
      simp only [List.getD_cons_zero, Node.action] at hp
      cases a <;> simp_all [Action.is_protected, Action.is_rebase]
    have hss := all_nodes_substacks hn
    simp only [Node.substacks] at hss
    refine ⟨?_, all_nodes_stacks_append hss hm⟩
    simp [Node.action, hnd]
  | .mk c b a p ss :: rest, i + 1, m, hs, hm, hp => by
    obtain ⟨hn, hrest⟩ := all_nodes_run_cons hs
    rw [attach_at, all_nodes_run]
    simp only [List.getD_cons_succ] at hp
    simp [hn, attach_at_delete_empty rest i m hrest hm hp]

mutual
/-- The drop pass moves commits around but never loses or duplicates one:
node-level sum preservation (the moved stacks account for the difference). -/
theorem drop_node_sum (tids : List Nat) (fc : Commit → Nat) : ∀ n : Node,
    sum_nodes (commit_weight fc) (drop_node tids n).1 +
      sum_nodes_stacks (commit_weight fc) (drop_node tids n).2
      = sum_nodes (commit_weight fc) n
  | .mk c b a p ss => by
    have hst := drop_stacks_sum tids fc ss
    rw [drop_node]
    simp only
    rw [sum_nodes, sum_nodes]
    simp only [commit_weight]
    omega

theorem drop_scan_sum (tids : List Nat) (fc : Commit → Nat) :
    ∀ s : List Node,
    sum_nodes_run (commit_weight fc) (drop_scan tids s).1 +
      sum_nodes_stacks (commit_weight fc) (drop_scan tids s).2.1
      = sum_nodes_run (commit_weight fc) s
  | [] => by
    rw [drop_scan]
    rw [sum_nodes_run, sum_nodes_stacks]
  | n :: rest => by
    rw [drop_scan]
    by_cases hprot : (n.action.is_protected || n.action.is_rebase) = true
    · rw [if_pos hprot]
      simp only
      rw [sum_nodes_run, sum_nodes_run, sum_nodes_stacks_append]
      have h1 := drop_node_sum tids fc n
      have h2 := drop_scan_sum tids fc rest
      omega
    · rw [if_neg hprot]
      by_cases hpk : (n.action == Action.Pick) = true
      · rw [if_pos hpk]
        by_cases hmatch : tids.contains n.local_commit.tree_id = true
        · rw [if_pos hmatch]
          simp only
          obtain ⟨c, b, a, p, ss⟩ := n
          rw [sum_nodes_run, sum_nodes_run, sum_nodes, sum_nodes,
            sum_nodes_stacks_append]
          have h2 := drop_scan_sum tids fc rest
          have e1 : (Node.mk c b a p ss).local_commit = c := rfl
          have e2 : (Node.mk c b a p ss).substacks = ss := rfl
          simp only [commit_weight, sum_nodes_stacks]
          rw [e1, e2]
          omega
        · rw [if_neg hmatch]
          dsimp only
          rw [sum_nodes_stacks]
          omega
      · rw [if_neg hpk]
        dsimp only
        rw [sum_nodes_stacks]
        omega

theorem drop_stacks_sum (tids : List Nat) (fc : Commit → Nat) :
    ∀ ss : List (List Node),
    sum_nodes_stacks (commit_weight fc) (drop_stacks tids ss).1 +
      sum_nodes_stacks (commit_weight fc) (drop_stacks tids ss).2
      = sum_nodes_stacks (commit_weight fc) ss
  | [] => by
    rw [drop_stacks]
    rw [sum_nodes_stacks]
  | s :: rest => by
    rw [drop_stacks]
    have hs := drop_scan_sum tids fc s
    have hrest := drop_stacks_sum tids fc rest
    rcases hlp : (drop_scan tids s).2.2 with _ | i
    · dsimp only
      rw [sum_nodes_stacks, sum_nodes_stacks, sum_nodes_stacks_append]
      omega
    · dsimp only
      have hlt := drop_scan_lp_lt tids s i hlp
      have hat := attach_at_sum fc (drop_scan tids s).1 i (drop_scan tids s).2.1 hlt
      rw [sum_nodes_stacks, sum_nodes_stacks, sum_nodes_stacks_append, hat]
      rw [sum_nodes_stacks]
      omega
end

mutual
/-- The drop pass keeps every `Delete` node stackless (given the input
satisfies the invariant): node level. -/
theorem drop_node_delete_empty (tids : List Nat) : ∀ n : Node,
    all_nodes (fun x => !(x.action == Action.Delete) ||
      x.substacks.isEmpty) n = true →
    all_nodes (fun x => !(x.action == Action.Delete) ||
      x.substacks.isEmpty) (drop_node tids n).1 = true ∧
    all_nodes_stacks (fun x => !(x.action == Action.Delete) ||
      x.substacks.isEmpty) (drop_node tids n).2 = true
  | .mk c b a p ss, h => by
    have hd := all_nodes_here h
    have hss := all_nodes_substacks h
    simp only [Node.substacks] at hss
    obtain ⟨h1, h2⟩ := drop_stacks_delete_empty tids ss hss
    rw [drop_node]
    simp only
    refine ⟨?_, h2⟩
    rw [all_nodes]
    simp only [Bool.and_eq_true]
    refine ⟨?_, h1⟩
    by_cases had : a = Action.Delete
    · subst had
      simp only [Node.action, Node.substacks, beq_self_eq_true, Bool.not_true,
        Bool.false_or] at hd ⊢
      have hnil : ss = [] := by simpa using hd
      subst hnil
      rw [drop_stacks]
      rfl
    · simp [Node.action, had]

theorem drop_scan_delete_empty (tids : List Nat) : ∀ s : List Node,
    all_nodes_run (fun x => !(x.action == Action.Delete) ||
      x.substacks.isEmpty) s = true →
    all_nodes_run (fun x => !(x.action == Action.Delete) ||
      x.substacks.isEmpty) (drop_scan tids s).1 = true ∧
    all_nodes_stacks (fun x => !(x.action == Action.Delete) ||
      x.substacks.isEmpty) (drop_scan tids s).2.1 = true
  | [], _ => by
    rw [drop_scan]
    exact ⟨rfl, rfl⟩
  | n :: rest, h => by
    obtain ⟨hn, hrest⟩ := all_nodes_run_cons h
    rw [drop_scan]
    by_cases hprot : (n.action.is_protected || n.action.is_rebase) = true
    · rw [if_pos hprot]
      simp only
      obtain ⟨hn1, hn2⟩ := drop_node_delete_empty tids n hn
      obtain ⟨hr1, hr2⟩ := drop_scan_delete_empty tids rest hrest
      constructor
      · rw [all_nodes_run]
        simp [hn1, hr1]
      · exact all_nodes_stacks_append hn2 hr2
    · rw [if_neg hprot]
      by_cases hpk : (n.action == Action.Pick) = true
      · rw [if_pos hpk]
        by_cases hmatch : tids.contains n.local_commit.tree_id = true
        · rw [if_pos hmatch]
          simp only
          obtain ⟨hr1, hr2⟩ := drop_scan_delete_empty tids rest hrest
          have hsub := all_nodes_substacks hn
          constructor
          · rw [all_nodes_run]
            simp only [Bool.and_eq_true]
            refine ⟨?_, hr1⟩
            rw [all_nodes]
            simp [Node.action, Node.substacks, all_nodes_stacks]
          · exact all_nodes_stacks_append hsub hr2
        · rw [if_neg hmatch]
          exact ⟨h, rfl⟩
      · rw [if_neg hpk]
        exact ⟨h, rfl⟩

theorem drop_stacks_delete_empty (tids : List Nat) : ∀ ss : List (List Node),
    all_nodes_stacks (fun x => !(x.action == Action.Delete) ||
      x.substacks.isEmpty) ss = true →
    all_nodes_stacks (fun x => !(x.action == Action.Delete) ||
      x.substacks.isEmpty) (drop_stacks tids ss).1 = true ∧
    all_nodes_stacks (fun x => !(x.action == Action.Delete) ||
      x.substacks.isEmpty) (drop_stacks tids ss).2 = true
  | [], _ => by
    rw [drop_stacks]
    exact ⟨rfl, rfl⟩
  | s :: rest, h => by
    obtain ⟨hs, hrest⟩ := all_nodes_stacks_cons h
    obtain ⟨hs1, hs2⟩ := drop_scan_delete_empty tids s hs
    obtain ⟨hr1, hr2⟩ := drop_stacks_delete_empty tids rest hrest
    rw [drop_stacks]
    rcases hlp : (drop_scan tids s).2.2 with _ | i
    · dsimp only
      constructor
      · rw [all_nodes_stacks]
        simp [hs1, hr1]
      · exact all_nodes_stacks_append hs2 hr2
    · dsimp only
      have hpi := drop_scan_lp_protected tids s i hlp
      constructor
      · rw [all_nodes_stacks]
        simp [attach_at_delete_empty (drop_scan tids s).1 i
          (drop_scan tids s).2.1 hs1 hs2 hpi, hr1]
      · simpa using hr2
end

/-- C7 (amended): after `drop_by_tree_id`, every `Delete` node has an empty
stacks list (given the input invariant `Delete ⇒ stacks empty`), and no
descendant is lost: for every per-commit weight the total over the graph is
unchanged, so the multiset of commits is preserved.  Detached stacks are
reattached under the most recently scanned protected/rebase node of the
enclosing run (or the graph root), which need not be the nearest preceding
protected node of the deleted node's own chain — see the counterexample. -/
theorem drop_preserves_descendants (onto : List Commit) (g : Node)
    (h : delete_empty g = true) :
    delete_empty (drop_by_tree_id onto g) = true ∧
    ∀ fc : Commit → Nat,
      sum_nodes (commit_weight fc) (drop_by_tree_id onto g)
        = sum_nodes (commit_weight fc) g := by
  obtain ⟨c, b, a, p, ss⟩ := g
  rw [delete_empty] at h
  have hd := all_nodes_here h
  have hss := all_nodes_substacks h
  simp only [Node.substacks] at hss
  rw [drop_by_tree_id]
  by_cases hprot : (a.is_protected || a.is_rebase) = true
  · rw [if_pos hprot]
    simp only
    obtain ⟨h1, h2⟩ := drop_stacks_delete_empty (onto.map Commit.tree_id) ss hss
    constructor
    · rw [delete_empty, all_nodes]
      simp only [Bool.and_eq_true]
      refine ⟨?_, all_nodes_stacks_append h1 h2⟩
      have hnd : ¬a = Action.Delete := by
        cases a <;> simp_all [Action.is_protected, Action.is_rebase]
      simp [Node.action, hnd]
    · intro fc
      have hsum := drop_stacks_sum (onto.map Commit.tree_id) fc ss
      rw [sum_nodes, sum_nodes, sum_nodes_stacks_append]
      simp only [commit_weight]
      omega
  · rw [if_neg hprot]
    constructor
    · rw [delete_empty, all_nodes]
      simp only [Bool.and_eq_true]
      exact ⟨hd, hss⟩
    · intro fc
      rfl

/-- Witness for C7 on the divergent graph of the counterexample. -/
theorem drop_preserves_descendants_witness :
    delete_empty
      (.mk ⟨0, 0, false⟩ [] .Protected false
        [[.mk ⟨1, 1, false⟩ [] .Protected false
            [[.mk ⟨3, 7, false⟩ [] .Pick false
                [[.mk ⟨4, 9, false⟩ [] .Pick false []]]]],
          .mk ⟨2, 2, false⟩ [] .Protected false []]]) = true ∧
    (delete_empty (drop_by_tree_id [⟨100, 7, false⟩]
      (.mk ⟨0, 0, false⟩ [] .Protected false
        [[.mk ⟨1, 1, false⟩ [] .Protected false
            [[.mk ⟨3, 7, false⟩ [] .Pick false
                [[.mk ⟨4, 9, false⟩ [] .Pick false []]]]],
          .mk ⟨2, 2, false⟩ [] .Protected false []]])) = true ∧
     sum_nodes (fun x => if x.local_commit.id == 4 then 1 else 0)
        (drop_by_tree_id [⟨100, 7, false⟩]
          (.mk ⟨0, 0, false⟩ [] .Protected false
            [[.mk ⟨1, 1, false⟩ [] .Protected false
                [[.mk ⟨3, 7, false⟩ [] .Pick false
                    [[.mk ⟨4, 9, false⟩ [] .Pick false []]]]],
              .mk ⟨2, 2, false⟩ [] .Protected false []]]))
       = sum_nodes (fun x => if x.local_commit.id == 4 then 1 else 0)
          (.mk ⟨0, 0, false⟩ [] .Protected false
            [[.mk ⟨1, 1, false⟩ [] .Protected false
                [[.mk ⟨3, 7, false⟩ [] .Pick false
                    [[.mk ⟨4, 9, false⟩ [] .Pick false []]]]],
              .mk ⟨2, 2, false⟩ [] .Protected false []]])) :=
  ⟨rfl,
    (drop_preserves_descendants [⟨100, 7, false⟩]
      (.mk ⟨0, 0, false⟩ [] .Protected false
        [[.mk ⟨1, 1, false⟩ [] .Protected false
            [[.mk ⟨3, 7, false⟩ [] .Pick false
                [[.mk ⟨4, 9, false⟩ [] .Pick false []]]]],
          .mk ⟨2, 2, false⟩ [] .Protected false []]]) rfl).1,
    (drop_preserves_descendants [⟨100, 7, false⟩]
      (.mk ⟨0, 0, false⟩ [] .Protected false
        [[.mk ⟨1, 1, false⟩ [] .Protected false
            [[.mk ⟨3, 7, false⟩ [] .Pick false
                [[.mk ⟨4, 9, false⟩ [] .Pick false []]]]],
          .mk ⟨2, 2, false⟩ [] .Protected false []]]) rfl).2
      (fun x => if x.id == 4 then 1 else 0)⟩

/-- C7 counterexample to the claim as stated: node 3 (a matching pick under
protected node 1) is deleted, but its child stack `[node 4]` is reattached
under node 2 — the *last scanned* protected node of the enclosing run — and
not under node 1, the nearest preceding protected node of node 3's own
chain. -/
theorem drop_reattach_counterexample :
    drop_by_tree_id [⟨100, 7, false⟩]
      (.mk ⟨0, 0, false⟩ [] .Protected false
        [[.mk ⟨1, 1, false⟩ [] .Protected false
            [[.mk ⟨3, 7, false⟩ [] .Pick false
                [[.mk ⟨4, 9, false⟩ [] .Pick false []]]]],
          .mk ⟨2, 2, false⟩ [] .Protected false []]])
    = .mk ⟨0, 0, false⟩ [] .Protected false
        [[.mk ⟨1, 1, false⟩ [] .Protected false
            [[.mk ⟨3, 7, false⟩ [] .Delete false []]],
          .mk ⟨2, 2, false⟩ [] .Protected false
            [[.mk ⟨4, 9, false⟩ [] .Pick false []]]]] :=
  rfl

/-! ### Claim C5: mark discipline -/

theorem scripts_flat_append : ∀ x y : List Script,
    scripts_flat (x ++ y) = scripts_flat x ++ scripts_flat y
  | [], y => by simp [scripts_flat]
  | s :: rest, y => by
    rw [List.cons_append, scripts_flat, scripts_flat,
      scripts_flat_append rest y, List.append_assoc]

theorem marks_ok_append : ∀ (xs : List Command) (regs : List Nat)
    (ys : List Command),
    marks_ok regs (xs ++ ys)
      = (marks_ok regs xs && marks_ok (regs_after regs xs) ys)
  | [], regs, ys => by simp [marks_ok, regs_after]
  | c :: rest, regs, ys => by
    cases c <;>
      simp [marks_ok, regs_after, marks_ok_append rest, Bool.and_assoc]

theorem regs_after_extends : ∀ (l : List Command) (regs : List Nat) (m : Nat),
    m ∈ regs → m ∈ regs_after regs l
  | [], _, _, h => h
  | .RegisterMark m' :: rest, regs, m, h =>
    regs_after_extends rest (m' :: regs) m (List.mem_cons_of_mem _ h)
  | .SwitchCommit _ :: rest, regs, m, h => regs_after_extends rest regs m h
  | .SwitchMark _ :: rest, regs, m, h => regs_after_extends rest regs m h
  | .CherryPick _ :: rest, regs, m, h => regs_after_extends rest regs m h
  | .CreateBranch _ :: rest, regs, m, h => regs_after_extends rest regs m h
  | .DeleteBranch _ :: rest, regs, m, h => regs_after_extends rest regs m h

theorem regs_after_mem_of_reg : ∀ (l : List Command) (regs : List Nat)
    (m : Nat), Command.RegisterMark m ∈ l → m ∈ regs_after regs l
  | c :: rest, regs, m, h => by
    rcases List.mem_cons.mp h with heq | hmem
    · cases heq.symm
      exact regs_after_extends rest (m :: regs) m (List.mem_cons_self _ _)
    · cases c with
      | RegisterMark m' => exact regs_after_mem_of_reg rest (m' :: regs) m hmem
      | SwitchCommit _ => exact regs_after_mem_of_reg rest regs m hmem
      | SwitchMark _ => exact regs_after_mem_of_reg rest regs m hmem
      | CherryPick _ => exact regs_after_mem_of_reg rest regs m hmem
      | CreateBranch _ => exact regs_after_mem_of_reg rest regs m hmem
      | DeleteBranch _ => exact regs_after_mem_of_reg rest regs m hmem

theorem marks_ok_no_switch : ∀ (l : List Command) (regs : List Nat),
    (∀ m : Nat, Command.SwitchMark m ∉ l) → marks_ok regs l = true
  | [], _, _ => rfl
  | c :: rest, regs, h => by
    have hrest : ∀ m : Nat, Command.SwitchMark m ∉ rest :=
      fun m hm => h m (List.mem_cons_of_mem _ hm)
    cases c with
    | SwitchMark m => exact absurd (List.mem_cons_self _ _) (h m)
    | RegisterMark m => exact marks_ok_no_switch rest (m :: regs) hrest
    | SwitchCommit _ => exact marks_ok_no_switch rest regs hrest
    | CherryPick _ => exact marks_ok_no_switch rest regs hrest
    | CreateBranch _ => exact marks_ok_no_switch rest regs hrest
    | DeleteBranch _ => exact marks_ok_no_switch rest regs hrest

/-- The commands of a straight run never include a `SwitchMark` (those are
only prepended to dependent sub-scripts). -/
theorem to_script_node_no_switch (n : Node) (m : Nat) :
    Command.SwitchMark m ∉ (to_script_node n).1 := by
  obtain ⟨c, b, a, p, ss⟩ := n
  cases a with
  | Pick =>
    rw [to_script_node]
    split
    · simp [List.mem_cons, List.mem_map]
    · simp [List.mem_cons, List.mem_map, List.mem_append]
  | Protected =>
    rw [to_script_node]
    simp [List.mem_map]
  | Rebase nb =>
    rw [to_script_node]
    simp
  | Delete =>
    rw [to_script_node]
    simp [List.mem_map]

theorem to_script_run_marks_ok : ∀ (ns : List Node) (regs : List Nat),
    marks_ok regs (to_script_run ns).1 = true
  | [], _ => rfl
  | n :: rest, regs => by
    rw [to_script_run]
    simp only
    rw [marks_ok_append]
    simp only [Bool.and_eq_true]
    exact ⟨marks_ok_no_switch _ regs (to_script_node_no_switch n),
      to_script_run_marks_ok rest _⟩

mutual
/-- Every dependent script produced under a node registers its base marks in
the node's own commands; with those marks registered, the flattened
dependents pass the mark check. -/
theorem to_script_node_deps_ok : ∀ (n : Node) (regs : List Nat),
    (∀ m, Command.RegisterMark m ∈ (to_script_node n).1 → m ∈ regs) →
    marks_ok regs (scripts_flat (to_script_node n).2) = true
  | .mk c b a p ss, regs, hreg => by
    cases a with
    | Pick =>
      rw [to_script_node] at hreg ⊢
      by_cases hss : ss.isEmpty = true
      · rw [if_pos hss]
        rfl
      · rw [if_neg hss] at hreg ⊢
        refine to_script_deps_ok ss c.id regs (hreg c.id ?_)
        simp [List.mem_append]
    | Protected =>
      rw [to_script_node] at hreg ⊢
      simp only at hreg ⊢
      cases ss with
      | nil => rfl
      | cons s0 srest =>
        refine to_script_deps_ok (s0 :: srest) c.id regs (hreg c.id ?_)
        exact List.mem_map.mpr ⟨s0, List.mem_cons_self _ _, rfl⟩
    | Rebase nb =>
      rw [to_script_node] at hreg ⊢
      simp only at hreg ⊢
      refine to_script_deps_ok ss nb regs (hreg nb ?_)
      simp
    | Delete => rfl

theorem to_script_run_deps_ok : ∀ (ns : List Node) (regs : List Nat),
    (∀ m, Command.RegisterMark m ∈ (to_script_run ns).1 → m ∈ regs) →
    marks_ok regs (scripts_flat (to_script_run ns).2) = true
  | [], _, _ => rfl
  | n :: rest, regs, hreg => by
    have hreg' : ∀ m, Command.RegisterMark m ∈
        (to_script_node n).1 ++ (to_script_run rest).1 → m ∈ regs := by
      intro m hm
      refine hreg m ?_
      rw [to_script_run]
      simpa using hm
    rw [to_script_run]
    simp only
    rw [scripts_flat_append, marks_ok_append]
    simp only [Bool.and_eq_true]
    constructor
    · refine to_script_node_deps_ok n regs (fun m hm => ?_)
      exact hreg' m (List.mem_append_left _ hm)
    · refine to_script_run_deps_ok rest _ (fun m hm => ?_)
      exact regs_after_extends _ regs m (hreg' m (List.mem_append_right _ hm))

theorem to_script_deps_ok : ∀ (ss : List (List Node)) (bm : Nat)
    (regs : List Nat), bm ∈ regs →
    marks_ok regs (scripts_flat (to_script_deps bm ss)) = true
  | [], _, _, _ => rfl
  | s :: rest, bm, regs, hbm => by
    rw [to_script_deps]
    rw [scripts_flat_append, marks_ok_append]
    simp only [Bool.and_eq_true]
    constructor
    · rw [mk_sub_script]
      by_cases hr1 : (to_script_run s).1.isEmpty = true
      · rw [if_pos hr1]
        have hnil : (to_script_run s).1 = [] := by
          simpa [List.isEmpty_iff] using hr1
        by_cases hd : (to_script_run s).2.isEmpty = true
        · simp only [hr1, hd, Bool.and_self, if_pos]
          rfl
        · simp only [hr1, hd, Bool.and_false, Bool.false_eq_true, if_false,
            Option.toList_some]
          rw [scripts_flat, script_flat, scripts_flat]
          rw [hnil]
          simp only [List.nil_append, List.append_nil]
          refine to_script_run_deps_ok s regs (fun m hm => ?_)
          rw [hnil] at hm
          simp at hm
      · rw [if_neg hr1]
        have hne : (Command.SwitchMark bm :: (to_script_run s).1).isEmpty
            = false := rfl
        simp only [hne, Bool.false_and, Bool.false_eq_true, if_false,
          Option.toList_some]
        rw [scripts_flat, script_flat, scripts_flat]
        simp only [List.append_nil]
        rw [List.cons_append, marks_ok]
        simp only [Bool.and_eq_true, decide_eq_true_eq]
        refine ⟨hbm, ?_⟩
        rw [marks_ok_append]
        simp only [Bool.and_eq_true]
        refine ⟨to_script_run_marks_ok s regs, ?_⟩
        refine to_script_run_deps_ok s _ (fun m hm => ?_)
        exact regs_after_mem_of_reg _ regs m hm
    · exact to_script_deps_ok rest bm _ (regs_after_extends _ regs bm hbm)
end

/-- C5: in the script tree produced by `to_script`, every `SwitchMark m` is
preceded — in the depth-first preorder that lists a script's own commands
before its dependents, dependents in stack order — by a `RegisterMark m` for
the same mark. -/
theorem to_script_mark_discipline (g : Node) :
    marks_ok [] (script_flat (to_script g)) = true := by
  obtain ⟨c, b, a, p, ss⟩ := g
  cases a with
  | Pick =>
    rw [to_script]
    rw [script_flat, marks_ok_append]
    simp only [Bool.and_eq_true]
    refine ⟨rfl, ?_⟩
    exact to_script_deps_ok ss c.id _ (List.mem_cons_self _ _)
  | Protected =>
    rw [to_script]
    rw [script_flat, marks_ok_append]
    simp only [Bool.and_eq_true]
    refine ⟨rfl, ?_⟩
    exact to_script_deps_ok ss c.id _ (List.mem_cons_self _ _)
  | Rebase nb =>
    rw [to_script]
    rw [script_flat, marks_ok_append]
    simp only [Bool.and_eq_true]
    refine ⟨rfl, ?_⟩
    exact to_script_deps_ok ss nb _ (List.mem_cons_self _ _)
  | Delete =>
    rw [to_script]
    rw [script_flat, scripts_flat]
    simp only [List.append_nil]
    refine marks_ok_no_switch _ [] (fun m hm => ?_)
    simp [List.mem_map] at hm

/-! ### Claim C1: to_script round-trip counts -/

theorem scripts_count_append (p : Command → Bool) : ∀ x y : List Script,
    scripts_count p (x ++ y) = scripts_count p x + scripts_count p y
  | [], y => by simp [scripts_count]
  | s :: rest, y => by
    rw [List.cons_append, scripts_count, scripts_count,
      scripts_count_append p rest y]
    omega

/-- Counting contribution of one optional sub-script: the prepended
`SwitchMark` never counts. -/
theorem mk_sub_script_count (p : Command → Bool) (bm : Nat)
    (cmds : List Command) (deps : List Script)
    (hp : p (Command.SwitchMark bm) = false) :
    scripts_count p (mk_sub_script bm cmds deps).toList
      = cmds.countP p + scripts_count p deps := by
  rw [mk_sub_script]
  by_cases hc : cmds.isEmpty = true
  · have hnil : cmds = [] := by simpa [List.isEmpty_iff] using hc
    subst hnil
    by_cases hd : deps.isEmpty = true
    · have hdn : deps = [] := by simpa [List.isEmpty_iff] using hd
      subst hdn
      simp [scripts_count]
    · simp only [List.isEmpty_nil, if_true, hd, Bool.and_false,
        Bool.false_eq_true, if_false, Option.toList_some]
      rw [scripts_count, script_count, scripts_count]
      simp
  · simp only [hc, Bool.false_eq_true, if_false]
    have hne : (Command.SwitchMark bm :: cmds).isEmpty = false := rfl
    simp only [hne, Bool.false_and, Bool.false_eq_true, if_false,
      Option.toList_some]
    rw [scripts_count, script_count, scripts_count, List.countP_cons]
    simp [hp]

mutual
/-- Per-node counting: the non-bookkeeping commands contributed by a node
and its subtree match the emitted weight, provided `p` ignores switches and
marks and every `Delete` node is stackless. -/
theorem to_script_node_count (p : Command → Bool)
    (hp : ∀ m : Nat, p (Command.SwitchCommit m) = false ∧
      p (Command.SwitchMark m) = false ∧ p (Command.RegisterMark m) = false) :
    ∀ n : Node,
    all_nodes (fun x => !(x.action == Action.Delete) ||
      x.substacks.isEmpty) n = true →
    (to_script_node n).1.countP p + scripts_count p (to_script_node n).2
      = sum_nodes (emitted_weight p) n
  | .mk c b a pu ss, h => by
    have hss : all_nodes_stacks (fun x => !(x.action == Action.Delete) ||
        x.substacks.isEmpty) ss = true := all_nodes_substacks h
    cases a with
    | Pick =>
      rw [to_script_node, sum_nodes]
      have hew : emitted_weight p (Node.mk c b Action.Pick pu ss)
          = (Command.CherryPick c.id ::
              b.map (fun br => Command.CreateBranch br.name)).countP p := by
        rw [emitted_weight, emitted_cmds]
      rw [hew]
      by_cases hssE : ss.isEmpty = true
      · have hnil : ss = [] := by simpa [List.isEmpty_iff] using hssE
        subst hnil
        rw [if_pos hssE]
        rw [scripts_count, sum_nodes_stacks]
      · rw [if_neg hssE]
        rw [List.countP_append, to_script_deps_count p hp ss c.id hss]
        have hr : ([Command.RegisterMark c.id] : List Command).countP p = 0 := by
          simp [List.countP_cons, (hp c.id).2.2]
        omega
    | Protected =>
      rw [to_script_node, sum_nodes]
      have hz : (ss.map (fun _ => Command.RegisterMark c.id)).countP p = 0 := by
        refine List.countP_eq_zero.mpr (fun cmd hcmd => ?_)
        obtain ⟨_, _, rfl⟩ := List.mem_map.mp hcmd
        simp [(hp c.id).2.2]
      rw [hz, to_script_deps_count p hp ss c.id hss]
      have hew : emitted_weight p (Node.mk c b Action.Protected pu ss) = 0 := by
        rw [emitted_weight, emitted_cmds]; rfl
      rw [hew]
    | Rebase nb =>
      rw [to_script_node, sum_nodes]
      have hz : ([Command.SwitchCommit nb, Command.RegisterMark nb] :
          List Command).countP p = 0 := by
        simp [List.countP_cons, (hp nb).1, (hp nb).2.2]
      rw [hz, to_script_deps_count p hp ss nb hss]
      have hew : emitted_weight p (Node.mk c b (Action.Rebase nb) pu ss) = 0 := by
        rw [emitted_weight, emitted_cmds]; rfl
      rw [hew]
    | Delete =>
      have hd := all_nodes_here h
      simp only [Node.action, Node.substacks, beq_self_eq_true, Bool.not_true,
        Bool.false_or] at hd
      have hnil : ss = [] := by simpa [List.isEmpty_iff] using hd
      subst hnil
      rw [to_script_node, sum_nodes, sum_nodes_stacks, scripts_count]
      have hew : emitted_weight p (Node.mk c b Action.Delete pu [])
          = (b.map (fun br => Command.DeleteBranch br.name)).countP p := by
        rw [emitted_weight, emitted_cmds]
      rw [hew]

theorem to_script_run_count (p : Command → Bool)
    (hp : ∀ m : Nat, p (Command.SwitchCommit m) = false ∧
      p (Command.SwitchMark m) = false ∧ p (Command.RegisterMark m) = false) :
    ∀ ns : List Node,
    all_nodes_run (fun x => !(x.action == Action.Delete) ||
      x.substacks.isEmpty) ns = true →
    (to_script_run ns).1.countP p + scripts_count p (to_script_run ns).2
      = sum_nodes_run (emitted_weight p) ns
  | [], _ => rfl
  | n :: rest, h => by
    obtain ⟨hn, hrest⟩ := all_nodes_run_cons h
    rw [to_script_run]
    simp only
    rw [List.countP_append, scripts_count_append, sum_nodes_run]
    have h1 := to_script_node_count p hp n hn
    have h2 := to_script_run_count p hp rest hrest
    omega

theorem to_script_deps_count (p : Command → Bool)
    (hp : ∀ m : Nat, p (Command.SwitchCommit m) = false ∧
      p (Command.SwitchMark m) = false ∧ p (Command.RegisterMark m) = false) :
    ∀ (ss : List (List Node)) (bm : Nat),
    all_nodes_stacks (fun x => !(x.action == Action.Delete) ||
      x.substacks.isEmpty) ss = true →
    scripts_count p (to_script_deps bm ss)
      = sum_nodes_stacks (emitted_weight p) ss
  | [], _, _ => rfl
  | s :: rest, bm, h => by
    obtain ⟨hs, hrest⟩ := all_nodes_stacks_cons h
    rw [to_script_deps]
    rw [scripts_count_append, sum_nodes_stacks,
      mk_sub_script_count p bm _ _ (hp bm).2.1,
      to_script_deps_count p hp rest bm hrest]
    have h1 := to_script_run_count p hp s hs
    omega
end

/-- Generic counting for the whole script: commands satisfying a predicate
that ignores switches and marks are exactly the emitted commands of the
non-root nodes, plus the root's own deletes when the root is a `Delete`
node.  In particular a `Pick` root emits no `CherryPick`. -/
theorem to_script_count_generic (p : Command → Bool) (g : Node)
    (hdel : delete_empty g = true)
    (hp : ∀ m : Nat, p (Command.SwitchCommit m) = false ∧
      p (Command.SwitchMark m) = false ∧ p (Command.RegisterMark m) = false) :
    script_count p (to_script g)
      = sum_nodes_stacks (emitted_weight p) g.substacks
        + (if g.action == Action.Delete then (emitted_cmds g).countP p
           else 0) := by
  obtain ⟨c, b, a, pu, ss⟩ := g
  rw [delete_empty] at hdel
  have hss : all_nodes_stacks (fun x => !(x.action == Action.Delete) ||
      x.substacks.isEmpty) ss = true := all_nodes_substacks hdel
  cases a with
  | Pick =>
    rw [to_script, script_count, to_script_deps_count p hp ss c.id hss]
    have hz : ([Command.SwitchCommit c.id, Command.RegisterMark c.id] :
        List Command).countP p = 0 := by
      simp [List.countP_cons, (hp c.id).1, (hp c.id).2.2]
    rw [hz]
    simp [Node.action, Node.substacks]
  | Protected =>
    rw [to_script, script_count, to_script_deps_count p hp ss c.id hss]
    have hz : ([Command.SwitchCommit c.id, Command.RegisterMark c.id] :
        List Command).countP p = 0 := by
      simp [List.countP_cons, (hp c.id).1, (hp c.id).2.2]
    rw [hz]
    simp [Node.action, Node.substacks]
  | Rebase nb =>
    rw [to_script, script_count, to_script_deps_count p hp ss nb hss]
    have hz : ([Command.SwitchCommit nb, Command.RegisterMark nb] :
        List Command).countP p = 0 := by
      simp [List.countP_cons, (hp nb).1, (hp nb).2.2]
    rw [hz]
    have esub : (Node.mk c b (Action.Rebase nb) pu ss).substacks = ss := rfl
    have eact : (Node.mk c b (Action.Rebase nb) pu ss).action = Action.Rebase nb := rfl
    rw [esub, eact]
    simp
  | Delete =>
    have hd := all_nodes_here hdel
    simp only [Node.action, Node.substacks, beq_self_eq_true, Bool.not_true,
      Bool.false_or] at hd
    have hnil : ss = [] := by simpa [List.isEmpty_iff] using hd
    subst hnil
    have esub : (Node.mk c b Action.Delete pu ([] : List (List Node))).substacks
        = [] := rfl
    rw [to_script, script_count, scripts_count, esub, sum_nodes_stacks]
    have hew : emitted_cmds (Node.mk c b Action.Delete pu [])
        = b.map (fun br => Command.DeleteBranch br.name) := by
      rw [emitted_cmds]
    simp [Node.action, hew]

/-- Pointwise form of `emitted_weight` at the cherry-pick predicate: a node
contributes one `CherryPick oid` exactly when it is a `Pick` of commit
`oid`. -/
theorem emitted_weight_cherry (oid : Nat) :
    emitted_weight (fun cmd => cmd == Command.CherryPick oid) = cherry_weight oid := by
  funext n
  obtain ⟨c, b, a, pu, ss⟩ := n
  have ea : (Node.mk c b a pu ss).action = a := rfl
  have ec : (Node.mk c b a pu ss).local_commit = c := rfl
  rw [emitted_weight, cherry_weight, ea, ec]
  cases a with
  | Pick =>
    rw [emitted_cmds, List.countP_cons]
    have hz : (b.map (fun br => Command.CreateBranch br.name)).countP
        (fun cmd => cmd == Command.CherryPick oid) = 0 := by
      refine List.countP_eq_zero.mpr (fun cmd hcmd => ?_)
      obtain ⟨br, _, rfl⟩ := List.mem_map.mp hcmd
      simp
    rw [hz]
    by_cases h : c.id = oid
    · subst h; simp
    · simp [h]
  | Protected => rw [emitted_cmds]; simp
  | Rebase nb => rw [emitted_cmds]; simp
  | Delete =>
    rw [emitted_cmds]
    have hz : (b.map (fun br => Command.DeleteBranch br.name)).countP
        (fun cmd => cmd == Command.CherryPick oid) = 0 := by
      refine List.countP_eq_zero.mpr (fun cmd hcmd => ?_)
      obtain ⟨br, _, rfl⟩ := List.mem_map.mp hcmd
      simp
    rw [hz]
    simp

/-- Pointwise form of `emitted_weight` at the create-branch predicate: a node
contributes one `CreateBranch name` per branch called `name` when it is a
`Pick`. -/
theorem emitted_weight_create (name : String) :
    emitted_weight (fun cmd => cmd == Command.CreateBranch name) = create_weight name := by
  funext n
  obtain ⟨c, b, a, pu, ss⟩ := n
  have ea : (Node.mk c b a pu ss).action = a := rfl
  have eb : (Node.mk c b a pu ss).branches = b := rfl
  rw [emitted_weight, create_weight, ea, eb]
  cases a with
  | Pick =>
    rw [emitted_cmds, List.countP_cons, List.countP_map]
    have h1 : (Command.CherryPick c.id == Command.CreateBranch name) = false := by
      simp
    have h2 : ((fun cmd => cmd == Command.CreateBranch name) ∘
        (fun br : Branch => Command.CreateBranch br.name))
        = (fun br : Branch => br.name == name) := by
      funext br
      show (Command.CreateBranch br.name == Command.CreateBranch name)
        = (br.name == name)
      rw [Bool.eq_iff_iff]
      simp
    rw [h2, h1]
    simp
  | Protected => rw [emitted_cmds]; simp
  | Rebase nb => rw [emitted_cmds]; simp
  | Delete =>
    rw [emitted_cmds]
    have hz : (b.map (fun br => Command.DeleteBranch br.name)).countP
        (fun cmd => cmd == Command.CreateBranch name) = 0 := by
      refine List.countP_eq_zero.mpr (fun cmd hcmd => ?_)
      obtain ⟨br, _, rfl⟩ := List.mem_map.mp hcmd
      simp
    rw [hz]
    simp

/-- Pointwise form of `emitted_weight` at the delete-branch predicate: a node
contributes one `DeleteBranch name` per branch called `name` when it is a
`Delete`. -/
theorem emitted_weight_delete (name : String) :
    emitted_weight (fun cmd => cmd == Command.DeleteBranch name) = delete_weight name := by
  funext n
  obtain ⟨c, b, a, pu, ss⟩ := n
  have ea : (Node.mk c b a pu ss).action = a := rfl
  have eb : (Node.mk c b a pu ss).branches = b := rfl
  rw [emitted_weight, delete_weight, ea, eb]
  cases a with
  | Pick =>
    rw [emitted_cmds, List.countP_cons]
    have h1 : (Command.CherryPick c.id == Command.DeleteBranch name) = false := by
      simp
    have hz : (b.map (fun br => Command.CreateBranch br.name)).countP
        (fun cmd => cmd == Command.DeleteBranch name) = 0 := by
      refine List.countP_eq_zero.mpr (fun cmd hcmd => ?_)
      obtain ⟨br, _, rfl⟩ := List.mem_map.mp hcmd
      simp
    rw [hz, h1]
    simp
  | Protected => rw [emitted_cmds]; simp
  | Rebase nb => rw [emitted_cmds]; simp
  | Delete =>
    rw [emitted_cmds, List.countP_map]
    have h2 : ((fun cmd => cmd == Command.DeleteBranch name) ∘
        (fun br : Branch => Command.DeleteBranch br.name))
        = (fun br : Branch => br.name == name) := by
      funext br
      show (Command.DeleteBranch br.name == Command.DeleteBranch name)
        = (br.name == name)
      rw [Bool.eq_iff_iff]
      simp
    rw [h2]
    simp

/-- C1: round-trip counts for `to_script`, corrected at the root.  For every
decorated graph whose `Delete` nodes are stackless, the script contains one
`CherryPick oid` per non-root `Pick` node of commit `oid`, one
`CreateBranch name` per branch called `name` of a non-root `Pick` node, and
one `DeleteBranch name` per branch called `name` of a `Delete` node — the
root contributing its own branch deletions when it is a `Delete` node, while
a `Pick` root emits no `CherryPick` or `CreateBranch` of its own (see the
counterexample). -/
theorem to_script_round_trip_counts (g : Node) (hdel : delete_empty g = true) :
    (∀ oid : Nat,
      script_count (fun cmd => cmd == Command.CherryPick oid) (to_script g)
        = sum_nodes_stacks (cherry_weight oid) g.substacks)
    ∧ (∀ name : String,
      script_count (fun cmd => cmd == Command.CreateBranch name) (to_script g)
        = sum_nodes_stacks (create_weight name) g.substacks)
    ∧ (∀ name : String,
      script_count (fun cmd => cmd == Command.DeleteBranch name) (to_script g)
        = sum_nodes_stacks (delete_weight name) g.substacks
          + delete_weight name g) := by
  refine ⟨fun oid => ?_, fun name => ?_, fun name => ?_⟩
  · have h := to_script_count_generic (fun cmd => cmd == Command.CherryPick oid) g hdel
      (fun m => ⟨by simp, by simp, by simp⟩)
    have e1 : (emitted_cmds g).countP (fun cmd => cmd == Command.CherryPick oid)
        = emitted_weight (fun cmd => cmd == Command.CherryPick oid) g := rfl
    rw [e1, emitted_weight_cherry] at h
    by_cases hA : (g.action == Action.Delete) = true
    · rw [if_pos hA] at h
      have hA' : g.action = Action.Delete := by simpa using hA
      have hz : cherry_weight oid g = 0 := by
        rw [cherry_weight, hA']
        simp
      rw [hz] at h
      simpa using h
    · rw [if_neg hA] at h
      simpa using h
  · have h := to_script_count_generic (fun cmd => cmd == Command.CreateBranch name) g hdel
      (fun m => ⟨by simp, by simp, by simp⟩)
    have e1 : (emitted_cmds g).countP (fun cmd => cmd == Command.CreateBranch name)
        = emitted_weight (fun cmd => cmd == Command.CreateBranch name) g := rfl
    rw [e1, emitted_weight_create] at h
    by_cases hA : (g.action == Action.Delete) = true
    · rw [if_pos hA] at h
      have hA' : g.action = Action.Delete := by simpa using hA
      have hz : create_weight name g = 0 := by
        rw [create_weight, hA']
        simp
      rw [hz] at h
      simpa using h
    · rw [if_neg hA] at h
      simpa using h
  · have h := to_script_count_generic (fun cmd => cmd == Command.DeleteBranch name) g hdel
      (fun m => ⟨by simp, by simp, by simp⟩)
    have e1 : (emitted_cmds g).countP (fun cmd => cmd == Command.DeleteBranch name)
        = emitted_weight (fun cmd => cmd == Command.DeleteBranch name) g := rfl
    rw [e1, emitted_weight_delete] at h
    by_cases hA : (g.action == Action.Delete) = true
    · rw [if_pos hA] at h
      exact h
    · rw [if_neg hA] at h
      have hz : delete_weight name g = 0 := by
        rw [delete_weight]
        rw [if_neg hA]
      rw [hz]
      simpa using h

/-- Witness for C1: on the fixture graph the hypothesis holds and the script
contains exactly one `CherryPick 2`, one `CreateBranch b` and one
`DeleteBranch c`, matching the graph counts. -/
theorem to_script_round_trip_counts_witness :
    delete_empty gW = true
    ∧ script_count (fun cmd => cmd == Command.CherryPick 2) (to_script gW) = 1
    ∧ script_count (fun cmd => cmd == Command.CreateBranch "b") (to_script gW) = 1
    ∧ script_count (fun cmd => cmd == Command.DeleteBranch "c") (to_script gW) = 1 := by
  refine ⟨by decide, ?_, ?_, ?_⟩
  · rw [(to_script_round_trip_counts gW (by decide)).1 2]
    decide
  · rw [(to_script_round_trip_counts gW (by decide)).2.1 "b"]
    decide
  · rw [(to_script_round_trip_counts gW (by decide)).2.2 "c"]
    decide

/-- Counterexample for C1 as stated: a graph consisting of a single `Pick`
root (commit 5, branch `a`) has one `Pick` node and one attached branch, yet
its script contains no `CherryPick 5` and no `CreateBranch a` — the root's
commit is never cherry-picked and its branches are never created. -/
theorem to_script_pick_root_counterexample :
    sum_nodes (cherry_weight 5)
      (Node.mk ⟨5, 0, false⟩ [⟨"a", 5, none⟩] Action.Pick false []) = 1
    ∧ sum_nodes (create_weight "a")
      (Node.mk ⟨5, 0, false⟩ [⟨"a", 5, none⟩] Action.Pick false []) = 1
    ∧ script_count (fun cmd => cmd == Command.CherryPick 5)
      (to_script (Node.mk ⟨5, 0, false⟩ [⟨"a", 5, none⟩] Action.Pick false [])) = 0
    ∧ script_count (fun cmd => cmd == Command.CreateBranch "a")
      (to_script (Node.mk ⟨5, 0, false⟩ [⟨"a", 5, none⟩] Action.Pick false [])) = 0 := by
  exact ⟨by decide, by decide, by decide, by decide⟩
